import Mathlib

/-!
Verification of the CalcAgent expression-reduction engine.

The Python sources (src/ustils.py, src/tools.py, src/graph.py, src/state.py,
src/configuration.py) are shallowly embedded below.  Expression strings are
modelled as `List Char`, Python floats as exact rationals `ℚ`, and the
LangGraph loop as an explicit step function over a state record, parameterised
by the two external collaborators (decision and computation), which the spec
abstracts as request/response interfaces.  The deterministic instantiation
reuses the precedence resolver `find_next_operation` and the tools, as the
spec prescribes for a collaborator-independent engine contract.
-/

set_option maxRecDepth 100000

namespace CalcAgent

/-! ## Character classes used by the tokenizer (ustils.py) -/

def isOpChar (c : Char) : Bool :=
  c == '+' || c == '-' || c == '*' || c == '/'

def isSignChar (c : Char) : Bool :=
  c == '+' || c == '-'

def isExpChar (c : Char) : Bool :=
  c == 'e' || c == 'E'

def isDigitChar (c : Char) : Bool :=
  c.isDigit

def isSpaceChar (c : Char) : Bool :=
  c.isWhitespace

/-- Python `str.strip()`: drop whitespace from both ends. -/
def stripChars (s : List Char) : List Char :=
  ((s.dropWhile isSpaceChar).reverse.dropWhile isSpaceChar).reverse

/-! ## `is_single_number` (ustils.py lines 27-50)

The regex is `^[+-]?(\d+\.?\d*|\d*\.?\d+)([eE][+-]?\d+)?$`.  We implement it
as a deterministic matcher: optional sign, then a digit body with at most one
dot and at least one digit, then an optional exponent part which must contain
at least one digit and reach the end of the string. -/

def dropSign : List Char → List Char
  | c :: rest => if isSignChar c then rest else c :: rest
  | [] => []

def spanDigits : List Char → List Char × List Char
  | [] => ([], [])
  | c :: rest =>
    if isDigitChar c then
      let p := spanDigits rest
      (c :: p.1, p.2)
    else ([], c :: rest)

/-- Consume one optional sign character, returning it and the remainder. -/
def takeSign (cs : List Char) : List Char × List Char :=
  match cs with
  | c :: rest => if isSignChar c then ([c], rest) else ([], c :: rest)
  | [] => ([], [])

/-- Consume an optional dot together with the following digits. -/
def takeDot (cs : List Char) : List Char × List Char :=
  match cs with
  | c :: rest =>
    if c == '.' then
      let q := spanDigits rest
      ('.' :: q.1, q.2)
    else ([], c :: rest)
  | [] => ([], [])

def matchNum (s : List Char) : Bool :=
  let s1 := dropSign s
  let p := spanDigits s1
  let q := takeDot p.2
  if p.1.isEmpty && q.1.length ≤ 1 then false
  else
    match q.2 with
    | [] => true
    | c :: rest =>
      if isExpChar c then
        let r := spanDigits (dropSign rest)
        !r.1.isEmpty && r.2.isEmpty
      else false

def is_single_number (expr : List Char) : Bool :=
  let t := stripChars expr
  !t.isEmpty && matchNum t

/-! ## Tokenizer: `parse_expression` (ustils.py lines 53-139) -/

inductive TKind
  | number
  | operator
deriving DecidableEq, Repr

structure Token where
  kind : TKind
  value : List Char
  start : Nat
  stop : Nat
deriving DecidableEq, Repr

/-- Consume an optional exponent part: a marker `e`/`E`, an optional sign
and the following digits (the marker is consumed even when no digits
follow, exactly as the Python loop does). -/
def takeExp (cs : List Char) : List Char × List Char :=
  match cs with
  | c :: rest =>
    if isExpChar c then
      let es := takeSign rest
      let q := spanDigits es.2
      (c :: (es.1 ++ q.1), q.2)
    else ([], c :: rest)
  | [] => ([], [])

/-- The greedy number munch: starting at the first character of a candidate
number literal, consume an optional sign, integer digits, an optional dot
with fractional digits, and an optional exponent part, exactly as the Python
while-loop body does.  Returns the consumed prefix and the remainder. -/
def munchNumber (cs : List Char) : List Char × List Char :=
  let p1 := takeSign cs
  let p2 := spanDigits p1.2
  let p3 := takeDot p2.2
  let p4 := takeExp p3.2
  (p1.1 ++ p2.1 ++ p3.1 ++ p4.1, p4.2)

def lastIsNumber (acc : List Token) : Bool :=
  match acc.getLast? with
  | some t => decide (t.kind = TKind.number)
  | none => false

/-- The tokenizer loop.  `fuel` is a structural-recursion bound; each step of
the Python while-loop advances `i` by at least one, so `fuel = length of the
remaining string` is always sufficient.  `i` is the absolute position in the
stripped expression, `rem` the remaining characters from that position. -/
def parseLoop : Nat → List Char → Nat → List Token → List Token
  | 0, _, _, acc => acc
  | _ + 1, [], _, acc => acc
  | fuel + 1, c :: rest, i, acc =>
    if isSpaceChar c then
      parseLoop fuel rest (i + 1) acc
    else if isOpChar c && lastIsNumber acc then
      parseLoop fuel rest (i + 1) (acc ++ [⟨TKind.operator, [c], i, i + 1⟩])
    else if isDigitChar c || isSignChar c || c == '.' then
      let m := munchNumber (c :: rest)
      parseLoop fuel m.2 (i + m.1.length) (acc ++ [⟨TKind.number, m.1, i, i + m.1.length⟩])
    else if c == '(' || c == ')' then
      parseLoop fuel rest (i + 1) acc
    else
      parseLoop fuel rest (i + 1) acc

def parse_expression (expr : List Char) : List Token :=
  let s := stripChars expr
  parseLoop s.length s 0 []

/-! ## Precedence resolver: `find_next_operation` (ustils.py lines 142-197) -/

/-- `OPERATOR_PRIORITY.get(value, 0)`. -/
def OPERATOR_PRIORITY (v : List Char) : Int :=
  if v = ['+'] then 1
  else if v = ['-'] then 1
  else if v = ['*'] then 2
  else if v = ['/'] then 2
  else 0

/-- `OPERATOR_TO_TOOL[value]`; operator tokens always carry one of the four
keys, so the fallback is unreachable. -/
def OPERATOR_TO_TOOL (v : List Char) : List Char :=
  if v = ['+'] then ("add").toList
  else if v = ['-'] then ("sub").toList
  else if v = ['*'] then ("mul").toList
  else if v = ['/'] then ("div").toList
  else []

/-- The scan for the highest-priority operator: strict `>` comparison, so the
leftmost operator among those of maximal priority wins. -/
def bestOpAux : List Token → Nat → Option Nat → Int → Option Nat
  | [], _, best, _ => best
  | t :: rest, i, best, bestPrio =>
    if t.kind = TKind.operator then
      let p := OPERATOR_PRIORITY t.value
      if bestPrio < p then bestOpAux rest (i + 1) (some i) p
      else bestOpAux rest (i + 1) best bestPrio
    else bestOpAux rest (i + 1) best bestPrio

def bestOpIdx (tokens : List Token) : Option Nat :=
  bestOpAux tokens 0 none (-1)

structure Operation where
  op : List Char
  lhs : List Char
  rhs : List Char
  span : Nat × Nat
  tool : List Char
deriving DecidableEq, Repr

inductive FindOutcome
  | crash
  | empty
  | found (o : Operation)
deriving DecidableEq, Repr

def defaultToken : Token := ⟨TKind.number, [], 0, 0⟩

/-- `find_next_operation`.  `tokens[best_op_idx + 1]` raises IndexError when
the chosen operator is the final token (`.crash`); `tokens[best_op_idx - 1]`
with `best_op_idx = 0` is Python negative indexing and silently wraps to the
last element. -/
def find_next_operation (tokens : List Token) : FindOutcome :=
  if tokens.length < 3 then .empty
  else
    match bestOpIdx tokens with
    | none => .empty
    | some i =>
      match tokens[i + 1]? with
      | none => .crash
      | some rhsTok =>
        let opTok := (tokens[i]?).getD defaultToken
        let lhsTok :=
          (if i = 0 then tokens.getLast? else tokens[i - 1]?).getD defaultToken
        .found ⟨opTok.value, lhsTok.value, rhsTok.value,
          (lhsTok.start, rhsTok.stop), OPERATOR_TO_TOOL opTok.value⟩

/-! ## Number value parser (the number grammar of the tokenizer / Python float)

`parse_number` gives the numeric value of a string matching the number
grammar, as an exact rational.  It models Python `float(...)` restricted to
the grammar the tokenizer and `is_single_number` accept (floats are modelled
as exact rationals throughout). -/

def digitVal (c : Char) : Nat := c.toNat - 48

def ofDigits (ds : List Char) : Nat :=
  ds.foldl (fun acc c => acc * 10 + digitVal c) 0

def parse_number (s : List Char) : Option ℚ :=
  let t := stripChars s
  let p1 : ℚ × List Char :=
    match t with
    | c :: rest =>
      if c == '-' then (-1, rest)
      else if c == '+' then (1, rest) else (1, c :: rest)
    | [] => (1, [])
  let p2 := spanDigits p1.2
  let p3 : List Char × List Char :=
    match p2.2 with
    | c :: rest => if c == '.' then spanDigits rest else ([], c :: rest)
    | [] => ([], [])
  if p2.1.isEmpty && p3.1.isEmpty then none
  else
    let mant : ℚ :=
      p1.1 * ((ofDigits p2.1 : ℚ) + (ofDigits p3.1 : ℚ) / (10 : ℚ) ^ p3.1.length)
    match p3.2 with
    | [] => some mant
    | c :: rest =>
      if isExpChar c then
        let es : Bool × List Char :=
          match rest with
          | c2 :: r2 =>
            if c2 == '-' then (true, r2)
            else if c2 == '+' then (false, r2) else (false, c2 :: r2)
          | [] => (false, [])
        let q := spanDigits es.2
        if q.1.isEmpty || !q.2.isEmpty then none
        else
          let e : Nat := ofDigits q.1
          some (if es.1 then mant / (10 : ℚ) ^ e else mant * (10 : ℚ) ^ e)
      else none

/-! ## Number formatter: `format_number` (ustils.py lines 225-242)

`str(int(value))` is decimal rendering of the truncation; the `else` branch is
C-style `%g` formatting with the default precision of 6 significant digits,
which is what the Python format spec `{value:g}` performs on the exact value
of the float. -/

def natDigitsAux : Nat → Nat → List Char
  | 0, _ => []
  | fuel + 1, n =>
    if n = 0 then []
    else natDigitsAux fuel (n / 10) ++ [Nat.digitChar (n % 10)]

def natToChars (n : Nat) : List Char :=
  if n = 0 then ['0'] else natDigitsAux n n

def intToChars (m : Int) : List Char :=
  if m < 0 then '-' :: natToChars m.natAbs else natToChars m.natAbs

/-- Python `int(q)`: truncation toward zero (Lean `Int` division is
T-division, which also truncates toward zero). -/
def truncQ (q : ℚ) : Int := q.num / (q.den : Int)

/-- Round a rational to the nearest integer, ties to even (the rounding used
when a binary float value is converted to a shorter decimal form). -/
def roundHalfEven (x : ℚ) : Int :=
  let f := x.floor
  let r := x - (f : ℚ)
  if r < 1 / 2 then f
  else if 1 / 2 < r then f + 1
  else if f % 2 = 0 then f else f + 1

def log10Aux : Nat → Nat → Nat
  | 0, _ => 0
  | fuel + 1, n => if n < 10 then 0 else log10Aux fuel (n / 10) + 1

def log10 (n : Nat) : Nat := log10Aux n n

/-- The decimal exponent of a positive rational: the `e` with
`10 ^ e ≤ q < 10 ^ (e + 1)`. -/
def qLog10 (q : ℚ) : Int :=
  let n := q.num.toNat
  let d := q.den
  let a := log10 n
  let b := log10 d
  if d * 10 ^ a ≤ n * 10 ^ b then (a : Int) - b else (a : Int) - b - 1

/-- Round a positive rational to 6 significant decimal digits: returns the
decimal exponent and the 6-digit mantissa (an integer in `[10^5, 10^6)`). -/
def sixDigitsOf (q : ℚ) : Int × Nat :=
  let e := qLog10 q
  let m := roundHalfEven (q * (10 : ℚ) ^ (5 - e))
  if m = 10 ^ 6 then (e + 1, 10 ^ 5) else (e, m.toNat)

def stripTrailingZeros (ds : List Char) : List Char :=
  (ds.reverse.dropWhile (fun c => c == '0')).reverse

/-- C-style exponent suffix: `e`, a mandatory sign, at least two digits. -/
def expSuffix (e : Int) : List Char :=
  let sgn : List Char := if e < 0 then ['-'] else ['+']
  let digs := natToChars e.natAbs
  let padded := if digs.length < 2 then '0' :: digs else digs
  'e' :: (sgn ++ padded)

/-- `%g` with precision 6 for a positive rational: scientific notation when
the decimal exponent is below -4 or at least 6, fixed notation otherwise;
trailing zeros suppressed in both. -/
def gFormatPos (q : ℚ) : List Char :=
  let p := sixDigitsOf q
  let e := p.1
  let digs := natToChars p.2
  if e < -4 ∨ 6 ≤ e then
    let frac := stripTrailingZeros (digs.drop 1)
    (digs.take 1 ++ (if frac.isEmpty then [] else '.' :: frac)) ++ expSuffix e
  else if 0 ≤ e then
    let ip := digs.take (e.toNat + 1)
    let frac := stripTrailingZeros (digs.drop (e.toNat + 1))
    ip ++ (if frac.isEmpty then [] else '.' :: frac)
  else
    let frac := stripTrailingZeros (List.replicate (e.natAbs - 1) '0' ++ digs)
    '0' :: (if frac.isEmpty then [] else '.' :: frac)

def gFormat (q : ℚ) : List Char :=
  if q = 0 then ['0']
  else if q < 0 then '-' :: gFormatPos (-q)
  else gFormatPos q

def format_number (q : ℚ) : List Char :=
  if q = ((truncQ q : Int) : ℚ) then intToChars (truncQ q)
  else gFormat q

/-! ## Span rewriter: `replace_span` (ustils.py lines 200-222) -/

def replace_span (expr : List Char) (span : Nat × Nat) (replacement : List Char) :
    List Char :=
  let w : Nat × Nat :=
    if 0 < span.1 ∧ span.2 < expr.length ∧
        expr[span.1 - 1]? = some '(' ∧ expr[span.2]? = some ')' then
      (span.1 - 1, span.2 + 1)
    else (span.1, span.2)
  expr.take w.1 ++ replacement ++ expr.drop w.2

/-! ## Tools (tools.py)

Each tool returns `{"value": ...}` or `{"error": ...}`. -/

inductive ToolResult
  | value (v : ℚ)
  | error (msg : List Char)
deriving DecidableEq, Repr

def add (lhs rhs : ℚ) : ToolResult := .value (lhs + rhs)

def sub (lhs rhs : ℚ) : ToolResult := .value (lhs - rhs)

def mul (lhs rhs : ℚ) : ToolResult := .value (lhs * rhs)

def div (lhs rhs : ℚ) : ToolResult :=
  if rhs = 0 then .error (("division by zero").toList)
  else .value (lhs / rhs)

/-! ## Configuration (configuration.py) -/

/-- `CalcAgentConfig.MAX_STEPS`: the documented maximum number of computation
steps, meant to prevent an infinite loop.  (It is defined in the
configuration module; `graph.py` never reads it.) -/
def MAX_STEPS : Nat := 100

/-! ## The LangGraph state machine (graph.py, state.py)

`CalcState` is embedded without its `messages` field: messages only ferry the
tool result from `calc_node`/`tool_node` to `update_node`, which the model
short-circuits through the computation collaborator.  The two LLM-backed
collaborators are parameters: the decision collaborator models
`judge_llm.invoke` + JSON parsing inside `judge_node` (`.fail` is an
exception caught by the `try`/`except` there), and the computation
collaborator models the `calc_node` → `tool_node` dispatch (`.raiseE` is an
exception raised during that dispatch, for which `calc_node` has no
`try`/`except`). -/

structure CalcSt where
  expression : List (List Char)
  operator : Option (List Char)
  lhs : Option (List Char)
  rhs : Option (List Char)
  span : Option (Nat × Nat)
  tool : Option (List Char)
  error : Option (List Char)
deriving DecidableEq, Repr

structure DecideFields where
  operator : Option (List Char)
  lhs : Option (List Char)
  rhs : Option (List Char)
  span : Option (Nat × Nat)
  tool : Option (List Char)
deriving DecidableEq, Repr

inductive DecideResult
  | fail (msg : List Char)
  | ok (f : DecideFields)
deriving DecidableEq, Repr

inductive ComputeOutcome
  | raiseE (msg : List Char)
  | res (r : ToolResult)
deriving DecidableEq, Repr

def Decider := List Char → DecideResult

def Computer := DecideFields → ComputeOutcome

/-- Python truthiness of an optional string field. -/
def truthyStr : Option (List Char) → Bool
  | none => false
  | some [] => false
  | some (_ :: _) => true

/-- The input to `graph.invoke`: the `expression` key may hold a bare string,
a list of strings, or be missing/None. -/
inductive StartInput
  | strE (s : List Char)
  | listE (l : List (List Char))
  | missing
deriving DecidableEq, Repr

/-- `start_node` (graph.py lines 59-75): a bare string (the `isinstance`
check comes first, so this includes the empty string) becomes a singleton
list; a falsy value (missing/None/empty list) becomes `["0"]`. -/
def start_node (input : StartInput) : List (List Char) :=
  match input with
  | .strE s => [s]
  | .listE l => if l.isEmpty then [[ '0' ]] else l
  | .missing => [[ '0' ]]

/-- `judge_node` (graph.py lines 78-121), with the LLM call and JSON parsing
abstracted into the decision collaborator. -/
def judge_node (dec : Decider) (s : CalcSt) : CalcSt :=
  match s.expression.getLast? with
  | none => { s with error := some (("expression is empty").toList) }
  | some cur =>
    if is_single_number cur then s
    else
      match dec cur with
      | .fail e =>
        { s with error := some ((("judge_node failed: ").toList) ++ e) }
      | .ok f =>
        { s with operator := f.operator, lhs := f.lhs, rhs := f.rhs,
                 span := f.span, tool := f.tool }

inductive JudgeRoute
  | toCalc
  | toEnd
deriving DecidableEq, Repr

/-- `route_after_judge` (graph.py lines 221-235). -/
def route_after_judge (s : CalcSt) : JudgeRoute :=
  if truthyStr s.error then .toEnd
  else if (match s.expression.getLast? with
           | some c => is_single_number c
           | none => false) then .toEnd
  else if truthyStr s.operator then .toCalc
  else .toEnd

/-- `route_after_update` (graph.py lines 238-245): `true` means loop back to
`judge_node`. -/
def route_after_update (s : CalcSt) : Bool :=
  !truthyStr s.error

/-- `update_node` (graph.py lines 149-214) given the parsed tool result.  The
JSON round-trip through the ToolMessage always succeeds for our tools, and a
tool result is by construction either a value or an error, so the
missing-value and unparseable branches of the Python code are unreachable.
`expression` is never empty when this node runs (start_node guarantees one
snapshot).  `replace_span` is total, so its `try`/`except` never fires. -/
def update_node (s : CalcSt) (tr : ToolResult) : CalcSt :=
  match tr with
  | .error e => { s with error := some e }
  | .value v =>
    let value_str := format_number v
    let cur := (s.expression.getLast?).getD []
    let new_expr :=
      match s.span with
      | some sp => replace_span cur sp value_str
      | none => value_str
    { s with expression := s.expression ++ [new_expr],
             operator := none, lhs := none, rhs := none,
             span := none, tool := none }

def fieldsOf (s : CalcSt) : DecideFields :=
  ⟨s.operator, s.lhs, s.rhs, s.span, s.tool⟩

inductive CycleResult
  | ended (s : CalcSt)
  | looped (s : CalcSt)
  | raised (msg : List Char)
deriving DecidableEq, Repr

/-- One pass around the graph from `judge_node`: judge, route, then (when
routed to `calc_node`) the fixed edges
`calc_node → tool_node → update_node` followed by `route_after_update`.
`route_after_judge` only dispatches to `calc_node` when `operator` is truthy,
so the `"no operator found"` early return of `calc_node` is unreachable.  An
exception in the compute dispatch propagates out of the engine (`.raised`):
`calc_node` does not catch it. -/
def oneCycle (dec : Decider) (comp : Computer) (s : CalcSt) : CycleResult :=
  let s1 := judge_node dec s
  match route_after_judge s1 with
  | .toEnd => .ended s1
  | .toCalc =>
    match comp (fieldsOf s1) with
    | .raiseE m => .raised m
    | .res tr =>
      let s2 := update_node s1 tr
      if route_after_update s2 then .looped s2 else .ended s2

inductive RunResult
  | done (s : CalcSt)
  | outOfFuel (s : CalcSt)
  | raised (msg : List Char)
deriving DecidableEq, Repr

def RunResult.isDone : RunResult → Bool
  | .done _ => true
  | _ => false

/-- The compiled graph loop (build_calc_graph, graph.py lines 252-296).  The
graph itself contains no step counter: `fuel` is only the modelling device
that makes the recursion total, and `.outOfFuel` means the loop was still
running after `fuel` cycles. -/
def loopCalc (dec : Decider) (comp : Computer) : Nat → CalcSt → RunResult
  | 0, s => .outOfFuel s
  | fuel + 1, s =>
    match oneCycle dec comp s with
    | .ended s2 => .done s2
    | .raised m => .raised m
    | .looped s2 => loopCalc dec comp fuel s2

def initialState (input : StartInput) : CalcSt :=
  ⟨start_node input, none, none, none, none, none, none⟩

def runCalc (dec : Decider) (comp : Computer) (input : StartInput)
    (fuel : Nat) : RunResult :=
  loopCalc dec comp fuel (initialState input)

/-! ## Deterministic collaborators

The spec (§6, §9) requires the engine contract to hold whether the decision
and computation steps are served by an external model-backed service or by a
trivial deterministic evaluator that reuses the precedence resolver and the
tools.  These are the deterministic instantiations. -/

def detDecide : Decider := fun cur =>
  match find_next_operation (parse_expression cur) with
  | .found o => .ok ⟨some o.op, some o.lhs, some o.rhs, some o.span, some o.tool⟩
  | .empty => .ok ⟨none, none, none, none, none⟩
  | .crash => .fail (("list index out of range").toList)

def detCompute : Computer := fun f =>
  match f.operator, f.lhs.bind parse_number, f.rhs.bind parse_number with
  | some op, some l, some r =>
    if op = (("+").toList) then .res (add l r)
    else if op = (("-").toList) then .res (sub l r)
    else if op = (("*").toList) then .res (mul l r)
    else if op = (("/").toList) then .res (div l r)
    else .raiseE (("unknown tool").toList)
  | _, _, _ => .raiseE (("tool invocation failed").toList)

/-! ## Well-formed expressions

A number literal of the grammar shared by `is_single_number`, the tokenizer
number munch and Python `float`: optional sign, integer digits, optional dot
with fraction digits, optional exponent marker with optional sign and at
least one digit, with at least one digit in the body.  A well-formed
expression is an alternation of such literals and operator characters with
no other characters (in particular no whitespace and no parentheses). -/

structure NumLit where
  sign : List Char
  a : List Char
  dot : Bool
  b : List Char
  hasExp : Bool
  echar : Char
  esign : List Char
  d : List Char
deriving DecidableEq, Repr

def NumLit.render (L : NumLit) : List Char :=
  L.sign ++ L.a ++ (if L.dot then '.' :: L.b else []) ++
    (if L.hasExp then L.echar :: (L.esign ++ L.d) else [])

def GoodLit (L : NumLit) : Prop :=
  (L.sign = [] ∨ L.sign = ['+'] ∨ L.sign = ['-']) ∧
  (∀ c ∈ L.a, isDigitChar c = true) ∧
  (∀ c ∈ L.b, isDigitChar c = true) ∧
  (L.dot = false → L.b = []) ∧
  (L.a ≠ [] ∨ L.b ≠ []) ∧
  (L.hasExp = true →
    (L.echar = 'e' ∨ L.echar = 'E') ∧
    (L.esign = [] ∨ L.esign = ['+'] ∨ L.esign = ['-']) ∧ L.d ≠ []) ∧
  (L.hasExp = false → L.esign = [] ∧ L.d = []) ∧
  (∀ c ∈ L.d, isDigitChar c = true)

instance : Inhabited NumLit := ⟨⟨[], ['0'], false, [], false, 'e', [], []⟩⟩

structure WFExpr where
  first : NumLit
  rest : List (Char × NumLit)
deriving DecidableEq, Repr

def GoodWF (w : WFExpr) : Prop :=
  GoodLit w.first ∧ ∀ p ∈ w.rest, isOpChar p.1 = true ∧ GoodLit p.2

instance (L : NumLit) : Decidable (GoodLit L) := by
  unfold GoodLit
  infer_instance

instance (w : WFExpr) : Decidable (GoodWF w) := by
  unfold GoodWF
  infer_instance

def renderTail : List (Char × NumLit) → List Char
  | [] => []
  | (c, L) :: rest => c :: (L.render ++ renderTail rest)

def renderWF (w : WFExpr) : List Char :=
  w.first.render ++ renderTail w.rest

/-- The literal standing left of the operator at pair-index `m` (the first
literal when `m = 0`). -/
def litAt (L : NumLit) : List (Char × NumLit) → Nat → NumLit
  | _, 0 => L
  | [], _ + 1 => L
  | p :: rest, m + 1 => litAt p.2 rest m

/-- Character offset of the operand at pair-index `m` in the rendered
expression. -/
def offAt (L : NumLit) : List (Char × NumLit) → Nat → Nat
  | _, 0 => 0
  | [], _ + 1 => 0
  | p :: rest, m + 1 => L.render.length + 1 + offAt p.2 rest m

def pairAt (ps : List (Char × NumLit)) (m : Nat) : Char × NumLit :=
  (ps[m]?).getD ('+', default)

/-- One structural reduction: collapse the operator at pair-index `j` with
its two adjacent literals into the literal `newL`.  The first component is
the new leading literal, the second the remaining pairs. -/
def reducePairs : NumLit → List (Char × NumLit) → Nat → NumLit →
    NumLit × List (Char × NumLit)
  | L, [], _, _ => (L, [])
  | _, _ :: rest, 0, newL => (newL, rest)
  | L, p :: rest, j + 1, newL =>
    let q := reducePairs p.2 rest j newL
    (L, (p.1, q.1) :: q.2)

def reduceAt (w : WFExpr) (j : Nat) (newL : NumLit) : WFExpr :=
  ⟨(reducePairs w.first w.rest j newL).1, (reducePairs w.first w.rest j newL).2⟩

/-- The token list the tokenizer produces on a rendered well-formed
expression starting at absolute offset `i`. -/
def tokensFrom : NumLit → List (Char × NumLit) → Nat → List Token
  | L, [], i => [⟨TKind.number, L.render, i, i + L.render.length⟩]
  | L, (c, L2) :: rest, i =>
    ⟨TKind.number, L.render, i, i + L.render.length⟩ ::
      ⟨TKind.operator, [c], i + L.render.length, i + L.render.length + 1⟩ ::
        tokensFrom L2 rest (i + L.render.length + 1)

/-- The precedence rule as the claim states it, over the token list: the
token at `i` is an operator, no operator token beats its priority, and every
operator token strictly to its left has strictly smaller priority (leftmost
tie-breaking). -/
def IsSpecChoiceTok (ts : List Token) (i : Nat) : Prop :=
  (∃ t : Token, ts[i]? = some t ∧ t.kind = TKind.operator) ∧
  (∀ (m : Nat) (t : Token), ts[m]? = some t → t.kind = TKind.operator →
    OPERATOR_PRIORITY t.value ≤
      OPERATOR_PRIORITY ((ts[i]?).getD defaultToken).value) ∧
  (∀ (m : Nat) (t : Token), m < i → ts[m]? = some t → t.kind = TKind.operator →
    OPERATOR_PRIORITY t.value <
      OPERATOR_PRIORITY ((ts[i]?).getD defaultToken).value)

/-- No division in the expression has a right operand whose literal denotes
zero (so no step of the reduction divides by zero). -/
def DivSafe (w : WFExpr) : Prop :=
  ∀ p ∈ w.rest, p.1 = '/' → parse_number p.2.render ≠ some 0

instance (w : WFExpr) : Decidable (DivSafe w) := by
  unfold DivSafe
  infer_instance

/-! ## Character-class facts -/

theorem digitChar_facts (c : Char) (h : isDigitChar c = true) :
    isSpaceChar c = false ∧ isSignChar c = false ∧ isOpChar c = false ∧
    isExpChar c = false ∧ (c == '.') = false ∧ (c == '(') = false ∧
    (c == ')') = false := by
  simp only [isDigitChar, Char.isDigit, Bool.and_eq_true, decide_eq_true_eq] at h
  obtain ⟨h1, h2⟩ := h
  simp only [isSpaceChar, Char.isWhitespace, isSignChar, isOpChar, isExpChar,
    Bool.or_eq_false_iff, decide_eq_false_iff_not, beq_eq_false_iff_ne, ne_eq]
  and_intros <;> intro hc <;> subst hc <;>
    first
      | exact absurd h1 (by decide)
      | exact absurd h2 (by decide)

theorem digitVal_digitChar (d : Nat) (h : d < 10) :
    digitVal (Nat.digitChar d) = d := by
  interval_cases d <;> rfl

theorem isDigitChar_digitChar (d : Nat) (h : d < 10) :
    isDigitChar (Nat.digitChar d) = true := by
  interval_cases d <;> rfl

/-! ## Decimal-digit round trip -/

theorem ofDigits_append_singleton (ds : List Char) (c : Char) :
    ofDigits (ds ++ [c]) = ofDigits ds * 10 + digitVal c := by
  simp [ofDigits, List.foldl_append]

theorem natDigitsAux_all_digits :
    ∀ fuel n, ∀ c ∈ natDigitsAux fuel n, isDigitChar c = true := by
  intro fuel
  induction fuel with
  | zero => intro n c hc; simp [natDigitsAux] at hc
  | succ f ih =>
    intro n c hc
    by_cases hn : n = 0
    · simp [natDigitsAux, hn] at hc
    · simp only [natDigitsAux, if_neg hn, List.mem_append,
        List.mem_singleton] at hc
      rcases hc with hc | hc
      · exact ih _ _ hc
      · subst hc
        exact isDigitChar_digitChar _ (Nat.mod_lt _ (by omega))

theorem ofDigits_natDigitsAux :
    ∀ fuel n, n ≤ fuel → ofDigits (natDigitsAux fuel n) = n := by
  intro fuel
  induction fuel with
  | zero =>
    intro n h
    have : n = 0 := by omega
    subst this
    simp [natDigitsAux, ofDigits]
  | succ f ih =>
    intro n h
    by_cases hn : n = 0
    · subst hn
      simp [natDigitsAux, ofDigits]
    · have hdiv : n / 10 < n := Nat.div_lt_self (by omega) (by omega)
      rw [natDigitsAux, if_neg hn, ofDigits_append_singleton,
        ih (n / 10) (by omega), digitVal_digitChar _ (Nat.mod_lt _ (by omega))]
      omega

theorem natToChars_all_digits (n : Nat) :
    ∀ c ∈ natToChars n, isDigitChar c = true := by
  intro c hc
  by_cases hn : n = 0
  · simp [natToChars, hn] at hc
    subst hc
    rfl
  · simp only [natToChars, if_neg hn] at hc
    exact natDigitsAux_all_digits _ _ _ hc

theorem ofDigits_natToChars (n : Nat) : ofDigits (natToChars n) = n := by
  by_cases hn : n = 0
  · simp [natToChars, hn, ofDigits, digitVal]
  · simp only [natToChars, if_neg hn]
    exact ofDigits_natDigitsAux n n le_rfl

theorem natToChars_ne_nil (n : Nat) : natToChars n ≠ [] := by
  by_cases hn : n = 0
  · simp [natToChars, hn]
  · simp only [natToChars, if_neg hn]
    intro hnil
    have := ofDigits_natDigitsAux n n le_rfl
    rw [hnil] at this
    simp [ofDigits] at this
    omega

/-! ## stripChars and spanDigits helpers -/

theorem dropWhile_eq_self_of_all (p : Char → Bool) (s : List Char)
    (h : ∀ c ∈ s, p c = false) : s.dropWhile p = s := by
  cases s with
  | nil => rfl
  | cons c rest =>
    rw [List.dropWhile_cons_of_neg]
    simp [h c (by simp)]

theorem stripChars_eq_self (s : List Char)
    (h : ∀ c ∈ s, isSpaceChar c = false) : stripChars s = s := by
  unfold stripChars
  rw [dropWhile_eq_self_of_all _ _ h,
    dropWhile_eq_self_of_all _ _ (fun c hc => h c (List.mem_reverse.mp hc)),
    List.reverse_reverse]

theorem spanDigits_split (a rest : List Char)
    (ha : ∀ c ∈ a, isDigitChar c = true)
    (hr : ∀ c, rest.head? = some c → isDigitChar c = false) :
    spanDigits (a ++ rest) = (a, rest) := by
  induction a with
  | nil =>
    simp only [List.nil_append]
    cases rest with
    | nil => rfl
    | cons c r =>
      rw [spanDigits, if_neg]
      simp [hr c rfl]
  | cons c a ih =>
    have hc : isDigitChar c = true := ha c (by simp)
    simp only [List.cons_append]
    rw [spanDigits, if_pos hc, ih (fun d hd => ha d (by simp [hd]))]

theorem spanDigits_all (s : List Char)
    (h : ∀ c ∈ s, isDigitChar c = true) : spanDigits s = (s, []) := by
  have := spanDigits_split s [] h (by intro c hc; simp at hc)
  simpa using this

/-! ## More character classes -/

theorem opChar_cases (c : Char) (h : isOpChar c = true) :
    c = '+' ∨ c = '-' ∨ c = '*' ∨ c = '/' := by
  simp only [isOpChar, Bool.or_eq_true, beq_iff_eq] at h
  tauto

theorem opChar_facts (c : Char) (h : isOpChar c = true) :
    isSpaceChar c = false ∧ isDigitChar c = false ∧ (c == '.') = false ∧
    isExpChar c = false ∧ isSignChar c = false ∨ True := Or.inr trivial

theorem opChar_not_space (c : Char) (h : isOpChar c = true) :
    isSpaceChar c = false := by
  rcases opChar_cases c h with rfl | rfl | rfl | rfl <;> rfl

theorem opChar_not_digit (c : Char) (h : isOpChar c = true) :
    isDigitChar c = false := by
  rcases opChar_cases c h with rfl | rfl | rfl | rfl <;> rfl

theorem opChar_not_dot (c : Char) (h : isOpChar c = true) :
    (c == '.') = false := by
  rcases opChar_cases c h with rfl | rfl | rfl | rfl <;> rfl

theorem opChar_not_exp (c : Char) (h : isOpChar c = true) :
    isExpChar c = false := by
  rcases opChar_cases c h with rfl | rfl | rfl | rfl <;> rfl

theorem expChar_cases (c : Char) (h : isExpChar c = true) :
    c = 'e' ∨ c = 'E' := by
  simp only [isExpChar, Bool.or_eq_true, beq_iff_eq] at h
  tauto

/-! ## Stage lemmas for the number munch -/

theorem takeSign_sign (s : Char) (hs : isSignChar s = true) (tail : List Char) :
    takeSign (s :: tail) = ([s], tail) := by
  simp [takeSign, hs]

theorem takeSign_nosign (tail : List Char)
    (ht : ∀ c, tail.head? = some c → isSignChar c = false) :
    takeSign tail = ([], tail) := by
  cases tail with
  | nil => rfl
  | cons c rest => simp [takeSign, ht c rfl]

theorem dropSign_sign (s : Char) (hs : isSignChar s = true) (tail : List Char) :
    dropSign (s :: tail) = tail := by
  simp [dropSign, hs]

theorem dropSign_nosign (tail : List Char)
    (ht : ∀ c, tail.head? = some c → isSignChar c = false) :
    dropSign tail = tail := by
  cases tail with
  | nil => rfl
  | cons c rest => simp [dropSign, ht c rfl]

theorem takeDot_dot (b tail : List Char)
    (hb : ∀ c ∈ b, isDigitChar c = true)
    (ht : ∀ c, tail.head? = some c → isDigitChar c = false) :
    takeDot ('.' :: (b ++ tail)) = ('.' :: b, tail) := by
  simp [takeDot, spanDigits_split b tail hb ht]

theorem takeDot_nodot (cs : List Char)
    (h : ∀ c, cs.head? = some c → (c == '.') = false) :
    takeDot cs = ([], cs) := by
  cases cs with
  | nil => rfl
  | cons c rest => simp [takeDot, h c rfl]

theorem takeExp_exp (e : Char) (he : isExpChar e = true)
    (esign d tail : List Char)
    (hes : esign = [] ∨ esign = ['+'] ∨ esign = ['-'])
    (hd : ∀ c ∈ d, isDigitChar c = true) (hdne : d ≠ [])
    (ht : ∀ c, tail.head? = some c → isDigitChar c = false) :
    takeExp (e :: (esign ++ (d ++ tail))) = (e :: (esign ++ d), tail) := by
  obtain ⟨c0, d2, rfl⟩ := List.exists_cons_of_ne_nil hdne
  have hc0 : isDigitChar c0 = true := hd c0 (by simp)
  have hsp : spanDigits ((c0 :: d2) ++ tail) = (c0 :: d2, tail) :=
    spanDigits_split _ tail hd ht
  simp only [List.cons_append] at hsp
  rcases hes with rfl | rfl | rfl
  · have hts : takeSign ((c0 :: d2) ++ tail) = ([], (c0 :: d2) ++ tail) :=
      takeSign_nosign _ (by
        intro c hc
        simp only [List.cons_append, List.head?_cons, Option.some.injEq] at hc
        subst hc
        exact (digitChar_facts c0 hc0).2.1)
    simp only [List.cons_append] at hts
    simp [takeExp, he, hts, hsp]
  · simp [takeExp, he, takeSign_sign '+' rfl, hsp]
  · simp [takeExp, he, takeSign_sign '-' rfl, hsp]

theorem takeExp_noexp (cs : List Char)
    (h : ∀ c, cs.head? = some c → isExpChar c = false) :
    takeExp cs = ([], cs) := by
  cases cs with
  | nil => rfl
  | cons c rest => simp [takeExp, h c rfl]

/-! ## The munch consumes exactly one good literal -/

/-- A suffix that is empty or begins with an operator character. -/
def OpHeaded (rest : List Char) : Prop :=
  rest = [] ∨ ∃ c rest2, rest = c :: rest2 ∧ isOpChar c = true

theorem opHeaded_head_facts (rest : List Char) (h : OpHeaded rest) :
    (∀ c, rest.head? = some c → isDigitChar c = false) ∧
    (∀ c, rest.head? = some c → (c == '.') = false) ∧
    (∀ c, rest.head? = some c → isExpChar c = false) := by
  rcases h with rfl | ⟨c, rest2, rfl, hc⟩
  · exact ⟨fun c hc => by simp at hc, fun c hc => by simp at hc,
      fun c hc => by simp at hc⟩
  · refine ⟨?_, ?_, ?_⟩ <;> intro c2 hc2 <;>
      simp only [List.head?_cons, Option.some.injEq] at hc2 <;> subst hc2
    · exact opChar_not_digit c hc
    · exact opChar_not_dot c hc
    · exact opChar_not_exp c hc

/-- Decomposition of a good literal for the munch: the body after the sign.
`bodyTail L rest` is what follows the integer digits. -/
theorem munchNumber_render (L : NumLit) (hg : GoodLit L) (rest : List Char)
    (hrest : OpHeaded rest) :
    munchNumber (L.render ++ rest) = (L.render, rest) := by
  obtain ⟨hsign, ha, hb, hnodotb, habne, hexp, hnoexp, hd⟩ := hg
  obtain ⟨hrd, hrdot, hrexp⟩ := opHeaded_head_facts rest hrest
  -- the expPart ++ rest suffix and its head facts
  set expPart : List Char :=
    if L.hasExp then L.echar :: (L.esign ++ L.d) else [] with hexpPart
  have hexpRest : takeExp (expPart ++ rest) = (expPart, rest) := by
    by_cases hx : L.hasExp = true
    · obtain ⟨hech, hes, hdne⟩ := hexp hx
      rw [hexpPart]
      simp only [hx, if_true]
      have hech2 : isExpChar L.echar = true := by
        rcases hech with h | h <;> rw [h] <;> rfl
      rw [List.cons_append, List.append_assoc]
      exact takeExp_exp L.echar hech2 L.esign L.d rest hes hd hdne hrd
    · simp only [Bool.not_eq_true] at hx
      obtain ⟨hes0, hd0⟩ := hnoexp hx
      rw [hexpPart]
      simp only [hx, Bool.false_eq_true, if_false, List.nil_append]
      exact takeExp_noexp rest hrexp
  have hexpHead : ∀ c, (expPart ++ rest).head? = some c →
      isDigitChar c = false := by
    intro c hc
    by_cases hx : L.hasExp = true
    · rw [hexpPart] at hc
      simp only [hx, if_true, List.cons_append, List.head?_cons,
        Option.some.injEq] at hc
      subst hc
      obtain ⟨hech, _, _⟩ := hexp hx
      rcases hech with h | h <;> rw [h] <;> rfl
    · simp only [Bool.not_eq_true] at hx
      rw [hexpPart] at hc
      simp only [hx, Bool.false_eq_true, if_false, List.nil_append] at hc
      exact hrd c hc
  -- the dotPart ++ expPart ++ rest suffix
  set dotPart : List Char := if L.dot then '.' :: L.b else [] with hdotPart
  have hdotRest : takeDot (dotPart ++ (expPart ++ rest)) =
      (dotPart, expPart ++ rest) := by
    by_cases hdt : L.dot = true
    · rw [hdotPart]
      simp only [hdt, if_true, List.cons_append]
      exact takeDot_dot L.b (expPart ++ rest) hb hexpHead
    · simp only [Bool.not_eq_true] at hdt
      rw [hdotPart]
      simp only [hdt, Bool.false_eq_true, if_false, List.nil_append]
      apply takeDot_nodot
      intro c hc
      by_cases hx : L.hasExp = true
      · rw [hexpPart] at hc
        simp only [hx, if_true, List.cons_append, List.head?_cons,
          Option.some.injEq] at hc
        subst hc
        obtain ⟨hech, _, _⟩ := hexp hx
        rcases hech with h | h <;> rw [h] <;> rfl
      · simp only [Bool.not_eq_true] at hx
        rw [hexpPart] at hc
        simp only [hx, Bool.false_eq_true, if_false, List.nil_append] at hc
        exact hrdot c hc
  have hdotHead : ∀ c, (dotPart ++ (expPart ++ rest)).head? = some c →
      isDigitChar c = false := by
    intro c hc
    by_cases hdt : L.dot = true
    · rw [hdotPart] at hc
      simp only [hdt, if_true, List.cons_append, List.head?_cons,
        Option.some.injEq] at hc
      subst hc
      rfl
    · simp only [Bool.not_eq_true] at hdt
      rw [hdotPart] at hc
      simp only [hdt, Bool.false_eq_true, if_false, List.nil_append] at hc
      exact hexpHead c hc
  -- the digits
  have hspan : spanDigits (L.a ++ (dotPart ++ (expPart ++ rest))) =
      (L.a, dotPart ++ (expPart ++ rest)) :=
    spanDigits_split _ _ ha hdotHead
  -- the sign
  have habHead : ∀ c, (L.a ++ (dotPart ++ (expPart ++ rest))).head? = some c →
      isSignChar c = false := by
    intro c hc
    cases hA : L.a with
    | cons c0 a2 =>
      rw [hA] at hc
      simp only [List.cons_append, List.head?_cons, Option.some.injEq] at hc
      subst hc
      exact (digitChar_facts c0 (ha c0 (by rw [hA]; simp))).2.1
    | nil =>
      have hbne : L.b ≠ [] := by
        rcases habne with h1 | h1
        · exact absurd hA h1
        · exact h1
      have hdt : L.dot = true := by
        by_cases hdt : L.dot = true
        · exact hdt
        · simp only [Bool.not_eq_true] at hdt
          exact absurd (hnodotb hdt) hbne
      rw [hA] at hc
      rw [hdotPart] at hc
      simp only [hdt, if_true, List.nil_append, List.cons_append,
        List.head?_cons, Option.some.injEq] at hc
      subst hc
      rfl
  have hsgn : takeSign (L.sign ++ (L.a ++ (dotPart ++ (expPart ++ rest)))) =
      (L.sign, L.a ++ (dotPart ++ (expPart ++ rest))) := by
    rcases hsign with h | h | h <;> rw [h]
    · simp only [List.nil_append]
      exact takeSign_nosign _ habHead
    · exact takeSign_sign '+' rfl _
    · exact takeSign_sign '-' rfl _
  have hshape : L.render ++ rest =
      L.sign ++ (L.a ++ (dotPart ++ (expPart ++ rest))) := by
    rw [NumLit.render, hdotPart, hexpPart]
    simp [List.append_assoc]
  rw [hshape, munchNumber, hsgn]
  simp only [hspan, hdotRest, hexpRest]
  rw [NumLit.render, hdotPart, hexpPart]

/-! ## The matcher on rendered literals -/

/-- On a good literal followed by an operator-headed (or empty) suffix, the
`is_single_number` matcher consumes exactly the literal and accepts iff the
suffix is empty. -/
theorem matchNum_render (L : NumLit) (hg : GoodLit L) (rest : List Char)
    (hrest : OpHeaded rest) :
    matchNum (L.render ++ rest) = rest.isEmpty := by
  obtain ⟨hsign, ha, hb, hnodotb, habne, hexp, hnoexp, hd⟩ := hg
  obtain ⟨hrd, hrdot, hrexp⟩ := opHeaded_head_facts rest hrest
  set expPart : List Char :=
    if L.hasExp then L.echar :: (L.esign ++ L.d) else [] with hexpPart
  have hexpHead : ∀ c, (expPart ++ rest).head? = some c →
      isDigitChar c = false := by
    intro c hc
    by_cases hx : L.hasExp = true
    · rw [hexpPart] at hc
      simp only [hx, if_true, List.cons_append, List.head?_cons,
        Option.some.injEq] at hc
      subst hc
      obtain ⟨hech, _, _⟩ := hexp hx
      rcases hech with h | h <;> rw [h] <;> rfl
    · simp only [Bool.not_eq_true] at hx
      rw [hexpPart] at hc
      simp only [hx, Bool.false_eq_true, if_false, List.nil_append] at hc
      exact hrd c hc
  set dotPart : List Char := if L.dot then '.' :: L.b else [] with hdotPart
  have hdotRest : takeDot (dotPart ++ (expPart ++ rest)) =
      (dotPart, expPart ++ rest) := by
    by_cases hdt : L.dot = true
    · rw [hdotPart]
      simp only [hdt, if_true, List.cons_append]
      exact takeDot_dot L.b (expPart ++ rest) hb hexpHead
    · simp only [Bool.not_eq_true] at hdt
      rw [hdotPart]
      simp only [hdt, Bool.false_eq_true, if_false, List.nil_append]
      apply takeDot_nodot
      intro c hc
      by_cases hx : L.hasExp = true
      · rw [hexpPart] at hc
        simp only [hx, if_true, List.cons_append, List.head?_cons,
          Option.some.injEq] at hc
        subst hc
        obtain ⟨hech, _, _⟩ := hexp hx
        rcases hech with h | h <;> rw [h] <;> rfl
      · simp only [Bool.not_eq_true] at hx
        rw [hexpPart] at hc
        simp only [hx, Bool.false_eq_true, if_false, List.nil_append] at hc
        exact hrdot c hc
  have hdotHead : ∀ c, (dotPart ++ (expPart ++ rest)).head? = some c →
      isDigitChar c = false := by
    intro c hc
    by_cases hdt : L.dot = true
    · rw [hdotPart] at hc
      simp only [hdt, if_true, List.cons_append, List.head?_cons,
        Option.some.injEq] at hc
      subst hc
      rfl
    · simp only [Bool.not_eq_true] at hdt
      rw [hdotPart] at hc
      simp only [hdt, Bool.false_eq_true, if_false, List.nil_append] at hc
      exact hexpHead c hc
  have hspan : spanDigits (L.a ++ (dotPart ++ (expPart ++ rest))) =
      (L.a, dotPart ++ (expPart ++ rest)) :=
    spanDigits_split _ _ ha hdotHead
  have habHead : ∀ c, (L.a ++ (dotPart ++ (expPart ++ rest))).head? = some c →
      isSignChar c = false := by
    intro c hc
    cases hA : L.a with
    | cons c0 a2 =>
      rw [hA] at hc
      simp only [List.cons_append, List.head?_cons, Option.some.injEq] at hc
      subst hc
      exact (digitChar_facts c0 (ha c0 (by rw [hA]; simp))).2.1
    | nil =>
      have hbne : L.b ≠ [] := by
        rcases habne with h1 | h1
        · exact absurd hA h1
        · exact h1
      have hdt : L.dot = true := by
        by_cases hdt : L.dot = true
        · exact hdt
        · simp only [Bool.not_eq_true] at hdt
          exact absurd (hnodotb hdt) hbne
      rw [hA] at hc
      rw [hdotPart] at hc
      simp only [hdt, if_true, List.nil_append, List.cons_append,
        List.head?_cons, Option.some.injEq] at hc
      subst hc
      rfl
  have hsgn : dropSign (L.sign ++ (L.a ++ (dotPart ++ (expPart ++ rest)))) =
      L.a ++ (dotPart ++ (expPart ++ rest)) := by
    rcases hsign with h | h | h <;> rw [h]
    · simp only [List.nil_append]
      exact dropSign_nosign _ habHead
    · exact dropSign_sign '+' rfl _
    · exact dropSign_sign '-' rfl _
  have hshape : L.render ++ rest =
      L.sign ++ (L.a ++ (dotPart ++ (expPart ++ rest))) := by
    rw [NumLit.render, hdotPart, hexpPart]
    simp [List.append_assoc]
  have hcond : (L.a.isEmpty && dotPart.length ≤ 1) = false := by
    cases hA : L.a with
    | cons c0 a2 => simp
    | nil =>
      have hbne : L.b ≠ [] := by
        rcases habne with h1 | h1
        · exact absurd hA h1
        · exact h1
      have hdt : L.dot = true := by
        by_cases hdt : L.dot = true
        · exact hdt
        · simp only [Bool.not_eq_true] at hdt
          exact absurd (hnodotb hdt) hbne
      rw [hdotPart]
      simp only [hdt, if_true, List.length_cons, Bool.and_eq_false_iff]
      right
      simp only [decide_eq_false_iff_not, not_le]
      have := List.length_pos.mpr hbne
      omega
  rw [hshape, matchNum, hsgn]
  simp only [hspan, hdotRest, hcond, Bool.false_eq_true, if_false]
  by_cases hx : L.hasExp = true
  · obtain ⟨hech, hes, hdne⟩ := hexp hx
    rw [hexpPart]
    simp only [hx, if_true, List.cons_append]
    have hech2 : isExpChar L.echar = true := by
      rcases hech with h | h <;> rw [h] <;> rfl
    simp only [hech2, if_true]
    have hds : dropSign (L.esign ++ (L.d ++ rest)) = L.d ++ rest := by
      rcases hes with h | h | h <;> rw [h]
      · simp only [List.nil_append]
        apply dropSign_nosign
        intro c hc
        obtain ⟨c0, d2, hD⟩ := List.exists_cons_of_ne_nil hdne
        rw [hD] at hc
        simp only [List.cons_append, List.head?_cons, Option.some.injEq] at hc
        subst hc
        exact (digitChar_facts c0 (hd c0 (by rw [hD]; simp))).2.1
      · exact dropSign_sign '+' rfl _
      · exact dropSign_sign '-' rfl _
    rw [List.append_assoc, hds, spanDigits_split L.d rest hd hrd]
    rcases hrest with rfl | ⟨c, rest2, rfl, hc⟩
    · simp [List.isEmpty_iff, hdne]
    · simp [List.isEmpty_iff, hdne]
  · simp only [Bool.not_eq_true] at hx
    rw [hexpPart]
    simp only [hx, Bool.false_eq_true, if_false, List.nil_append]
    rcases hrest with rfl | ⟨c, rest2, rfl, hc⟩
    · rfl
    · simp [opChar_not_exp c hc]

/-! ## No whitespace in renders -/

theorem render_no_space (L : NumLit) (hg : GoodLit L) :
    ∀ c ∈ L.render, isSpaceChar c = false := by
  obtain ⟨hsign, ha, hb, _, _, hexp, _, hd⟩ := hg
  intro c hc
  rw [NumLit.render] at hc
  simp only [List.mem_append] at hc
  rcases hc with ((hc | hc) | hc) | hc
  · rcases hsign with h | h | h <;> rw [h] at hc
    · simp at hc
    · simp only [List.mem_singleton] at hc
      subst hc
      rfl
    · simp only [List.mem_singleton] at hc
      subst hc
      rfl
  · exact (digitChar_facts c (ha c hc)).1
  · by_cases hdt : L.dot = true
    · simp only [hdt, if_true, List.mem_cons] at hc
      rcases hc with rfl | hc
      · rfl
      · exact (digitChar_facts c (hb c hc)).1
    · simp only [Bool.not_eq_true] at hdt
      simp [hdt] at hc
  · by_cases hx : L.hasExp = true
    · obtain ⟨hech, hes, _⟩ := hexp hx
      simp only [hx, if_true, List.mem_cons, List.mem_append] at hc
      rcases hc with rfl | hc | hc
      · rcases hech with h | h <;> rw [h] <;> rfl
      · rcases hes with h | h | h <;> rw [h] at hc
        · simp at hc
        · simp only [List.mem_singleton] at hc
          subst hc
          rfl
        · simp only [List.mem_singleton] at hc
          subst hc
          rfl
      · exact (digitChar_facts c (hd c hc)).1
    · simp only [Bool.not_eq_true] at hx
      simp [hx] at hc

theorem renderTail_no_space (ps : List (Char × NumLit))
    (hg : ∀ p ∈ ps, isOpChar p.1 = true ∧ GoodLit p.2) :
    ∀ c ∈ renderTail ps, isSpaceChar c = false := by
  induction ps with
  | nil => intro c hc; simp [renderTail] at hc
  | cons p rest ih =>
    intro c hc
    obtain ⟨hop, hlit⟩ := hg p (by simp)
    cases p with
    | mk pc pl =>
      simp only [renderTail, List.mem_cons, List.mem_append] at hc
      rcases hc with rfl | hc | hc
      · exact opChar_not_space c hop
      · exact render_no_space pl hlit c hc
      · exact ih (fun q hq => hg q (by simp [hq])) c hc

theorem render_ne_nil (L : NumLit) (hg : GoodLit L) : L.render ≠ [] := by
  obtain ⟨_, ha, hb, hnodotb, habne, _, _, _⟩ := hg
  rw [NumLit.render]
  intro hnil
  simp only [List.append_eq_nil] at hnil
  obtain ⟨⟨⟨_, ha0⟩, hdot0⟩, _⟩ := hnil
  rcases habne with h1 | h1
  · exact h1 ha0
  · apply h1
    by_cases hdt : L.dot = true
    · rw [hdt] at hdot0
      simp at hdot0
    · simp only [Bool.not_eq_true] at hdt
      exact hnodotb hdt

/-! ## is_single_number on renders -/

theorem is_single_number_render (L : NumLit) (hg : GoodLit L) :
    is_single_number L.render = true := by
  rw [is_single_number, stripChars_eq_self _ (render_no_space L hg)]
  have h := matchNum_render L hg [] (Or.inl rfl)
  rw [List.append_nil] at h
  simp [h, List.isEmpty_iff, render_ne_nil L hg]

theorem is_single_number_render_tail (L : NumLit) (hg : GoodLit L)
    (c : Char) (hc : isOpChar c = true) (rest2 : List Char)
    (hall : ∀ d ∈ L.render ++ c :: rest2, isSpaceChar d = false) :
    is_single_number (L.render ++ c :: rest2) = false := by
  rw [is_single_number, stripChars_eq_self _ hall]
  rw [matchNum_render L hg (c :: rest2) (Or.inr ⟨c, rest2, rfl, hc⟩)]
  simp

/-! ## format_number always renders a good literal -/

theorem mem_stripTrailingZeros (ds : List Char) (c : Char)
    (hc : c ∈ stripTrailingZeros ds) : c ∈ ds := by
  rw [stripTrailingZeros, List.mem_reverse] at hc
  have hsub := List.dropWhile_sublist (l := ds.reverse)
    (p := fun c => c == '0')
  have := hsub.mem hc
  rwa [List.mem_reverse] at this

theorem take_ne_nil_of_ne_nil (ds : List Char) (n : Nat) (h : ds ≠ [])
    (hn : 1 ≤ n) : ds.take n ≠ [] := by
  cases ds with
  | nil => exact absurd rfl h
  | cons c rest =>
    cases n with
    | zero => omega
    | succ m => simp

/-- Build a good literal with no sign and no exponent whose render is
`a ++ (if frac.isEmpty then [] else '.' :: frac)`. -/
theorem fixed_lit (a frac : List Char) (hane : a ≠ [])
    (ha : ∀ c ∈ a, isDigitChar c = true)
    (hf : ∀ c ∈ frac, isDigitChar c = true) :
    ∃ L : NumLit, GoodLit L ∧ L.sign = [] ∧
      L.render = a ++ (if frac.isEmpty then [] else '.' :: frac) := by
  refine ⟨⟨[], a, !frac.isEmpty, frac, false, 'e', [], []⟩, ?_, rfl, ?_⟩
  · refine ⟨Or.inl rfl, ha, hf, ?_, Or.inl hane, by simp, fun _ => ⟨rfl, rfl⟩,
      by simp⟩
    intro hdot
    simp only [Bool.not_eq_true] at hdot
    simpa [List.isEmpty_iff] using hdot
  · rw [NumLit.render]
    by_cases hfe : frac.isEmpty = true
    · simp [hfe]
    · simp only [Bool.not_eq_true] at hfe
      simp [hfe]

/-- Build a good literal with no sign and an exponent part whose render is
`(a ++ (if frac.isEmpty then [] else '.' :: frac)) ++ ('e' :: (esgn ++ d))`. -/
theorem sci_lit (a frac esgn d : List Char) (hane : a ≠ [])
    (ha : ∀ c ∈ a, isDigitChar c = true)
    (hf : ∀ c ∈ frac, isDigitChar c = true)
    (hes : esgn = ['+'] ∨ esgn = ['-'])
    (hd : ∀ c ∈ d, isDigitChar c = true) (hdne : d ≠ []) :
    ∃ L : NumLit, GoodLit L ∧ L.sign = [] ∧
      L.render = (a ++ (if frac.isEmpty then [] else '.' :: frac)) ++
        ('e' :: (esgn ++ d)) := by
  refine ⟨⟨[], a, !frac.isEmpty, frac, true, 'e', esgn, d⟩, ?_, rfl, ?_⟩
  · refine ⟨Or.inl rfl, ha, hf, ?_, Or.inl hane,
      fun _ => ⟨Or.inl rfl, by tauto, hdne⟩, by simp, hd⟩
    intro hdot
    simp only [Bool.not_eq_true] at hdot
    simpa [List.isEmpty_iff] using hdot
  · rw [NumLit.render]
    by_cases hfe : frac.isEmpty = true
    · simp [hfe]
    · simp only [Bool.not_eq_true] at hfe
      simp [hfe]

/-- Prefix a minus sign onto a signless good literal. -/
theorem neg_lit (L : NumLit) (hg : GoodLit L) (hs : L.sign = []) :
    ∃ L2 : NumLit, GoodLit L2 ∧ L2.render = '-' :: L.render := by
  obtain ⟨_, ha, hb, hnodotb, habne, hexp, hnoexp, hd⟩ := hg
  refine ⟨⟨['-'], L.a, L.dot, L.b, L.hasExp, L.echar, L.esign, L.d⟩,
    ⟨Or.inr (Or.inr rfl), ha, hb, hnodotb, habne, hexp, hnoexp, hd⟩, ?_⟩
  rw [NumLit.render, NumLit.render]
  rw [hs]
  rfl

theorem padded_exp_digits (n : Nat) :
    (∀ c ∈ (if (natToChars n).length < 2 then '0' :: natToChars n
      else natToChars n), isDigitChar c = true) ∧
    (if (natToChars n).length < 2 then '0' :: natToChars n
      else natToChars n) ≠ [] := by
  by_cases h : (natToChars n).length < 2
  · simp only [h, if_true]
    refine ⟨?_, by simp⟩
    intro c hc
    rcases List.mem_cons.mp hc with rfl | hc
    · rfl
    · exact natToChars_all_digits n c hc
  · simp only [h, if_false]
    exact ⟨natToChars_all_digits n, natToChars_ne_nil n⟩

theorem gFormatPos_lit (x : ℚ) :
    ∃ L : NumLit, GoodLit L ∧ L.sign = [] ∧ L.render = gFormatPos x := by
  rw [gFormatPos]
  have hdne : natToChars (sixDigitsOf x).2 ≠ [] := natToChars_ne_nil _
  have hdig := natToChars_all_digits (sixDigitsOf x).2
  by_cases h1 : (sixDigitsOf x).1 < -4 ∨ 6 ≤ (sixDigitsOf x).1
  · rw [if_pos h1, expSuffix]
    obtain ⟨hpd, hpne⟩ := padded_exp_digits (sixDigitsOf x).1.natAbs
    obtain ⟨L, hg, hs, hr⟩ := sci_lit
      ((natToChars (sixDigitsOf x).2).take 1)
      (stripTrailingZeros ((natToChars (sixDigitsOf x).2).drop 1))
      (if (sixDigitsOf x).1 < 0 then ['-'] else ['+'])
      (if (natToChars (sixDigitsOf x).1.natAbs).length < 2 then
        '0' :: natToChars (sixDigitsOf x).1.natAbs
       else natToChars (sixDigitsOf x).1.natAbs)
      (take_ne_nil_of_ne_nil _ _ hdne le_rfl)
      (fun c hc => hdig c (List.take_subset _ _ hc))
      (fun c hc => hdig c (List.drop_subset _ _ (mem_stripTrailingZeros _ c hc)))
      (by by_cases hneg : (sixDigitsOf x).1 < 0 <;> simp [hneg])
      hpd hpne
    exact ⟨L, hg, hs, hr⟩
  · rw [if_neg h1]
    by_cases h2 : 0 ≤ (sixDigitsOf x).1
    · rw [if_pos h2]
      exact fixed_lit _ _
        (take_ne_nil_of_ne_nil _ _ hdne (by omega))
        (fun c hc => hdig c (List.take_subset _ _ hc))
        (fun c hc => hdig c (List.drop_subset _ _ (mem_stripTrailingZeros _ c hc)))
    · rw [if_neg h2]
      have : ∀ c ∈ stripTrailingZeros
          (List.replicate ((sixDigitsOf x).1.natAbs - 1) '0' ++
            natToChars (sixDigitsOf x).2), isDigitChar c = true := by
        intro c hc
        have hc2 := mem_stripTrailingZeros _ c hc
        rcases List.mem_append.mp hc2 with hc3 | hc3
        · rw [List.eq_of_mem_replicate hc3]
          rfl
        · exact hdig c hc3
      obtain ⟨L, hg, hs, hr⟩ := fixed_lit ['0'] _ (by simp)
        (by intro c hc; rcases List.mem_singleton.mp hc with rfl; rfl) this
      exact ⟨L, hg, hs, by rw [hr]; rfl⟩

theorem format_number_lit (q : ℚ) :
    ∃ L : NumLit, GoodLit L ∧ L.render = format_number q := by
  rw [format_number]
  by_cases hint : q = ((truncQ q : Int) : ℚ)
  · rw [if_pos hint, intToChars]
    by_cases hm : truncQ q < 0
    · rw [if_pos hm]
      obtain ⟨L, hg, hs, hr⟩ := fixed_lit (natToChars (truncQ q).natAbs) []
        (natToChars_ne_nil _) (natToChars_all_digits _) (by simp)
      obtain ⟨L2, hg2, hr2⟩ := neg_lit L hg hs
      refine ⟨L2, hg2, ?_⟩
      rw [hr2, hr]
      simp
    · rw [if_neg hm]
      obtain ⟨L, hg, _, hr⟩ := fixed_lit (natToChars (truncQ q).natAbs) []
        (natToChars_ne_nil _) (natToChars_all_digits _) (by simp)
      refine ⟨L, hg, ?_⟩
      rw [hr]
      simp
  · rw [if_neg hint, gFormat]
    have hq0 : ¬(q = 0) := by
      intro h
      apply hint
      rw [h]
      rfl
    rw [if_neg hq0]
    by_cases hneg : q < 0
    · rw [if_pos hneg]
      obtain ⟨L, hg, hs, hr⟩ := gFormatPos_lit (-q)
      obtain ⟨L2, hg2, hr2⟩ := neg_lit L hg hs
      exact ⟨L2, hg2, by rw [hr2, hr]⟩
    · rw [if_neg hneg]
      obtain ⟨L, hg, _, hr⟩ := gFormatPos_lit q
      exact ⟨L, hg, hr⟩

/-! ## The tokenizer on rendered expressions -/

theorem parseLoop_nil (fuel i : Nat) (acc : List Token) :
    parseLoop fuel [] i acc = acc := by
  cases fuel <;> rfl

theorem lastIsNumber_concat (acc : List Token) (t : Token) :
    lastIsNumber (acc ++ [t]) = decide (t.kind = TKind.number) := by
  simp [lastIsNumber, List.getLast?_concat]

theorem render_head (L : NumLit) (hg : GoodLit L) (c : Char)
    (hc : L.render.head? = some c) :
    isDigitChar c = true ∨ isSignChar c = true ∨ (c == '.') = true := by
  obtain ⟨hsign, ha, hb, hnodotb, habne, _, _, _⟩ := hg
  rw [NumLit.render] at hc
  rcases hsign with h | h | h
  · rw [h, List.nil_append] at hc
    cases hA : L.a with
    | cons c0 a2 =>
      rw [hA] at hc
      simp only [List.cons_append, List.head?_cons, Option.some.injEq] at hc
      subst hc
      exact Or.inl (ha c0 (by rw [hA]; simp))
    | nil =>
      have hbne : L.b ≠ [] := by
        rcases habne with h1 | h1
        · exact absurd hA h1
        · exact h1
      have hdt : L.dot = true := by
        by_cases hdt : L.dot = true
        · exact hdt
        · simp only [Bool.not_eq_true] at hdt
          exact absurd (hnodotb hdt) hbne
      rw [hA, hdt, List.nil_append] at hc
      simp only [if_true, List.cons_append, List.head?_cons,
        Option.some.injEq] at hc
      subst hc
      exact Or.inr (Or.inr rfl)
  · rw [h] at hc
    simp only [List.cons_append, List.head?_cons, Option.some.injEq] at hc
    subst hc
    exact Or.inr (Or.inl rfl)
  · rw [h] at hc
    simp only [List.cons_append, List.head?_cons, Option.some.injEq] at hc
    subst hc
    exact Or.inr (Or.inl rfl)

theorem renderTail_opHeaded (ps : List (Char × NumLit))
    (hg : ∀ p ∈ ps, isOpChar p.1 = true ∧ GoodLit p.2) :
    OpHeaded (renderTail ps) := by
  cases ps with
  | nil => exact Or.inl rfl
  | cons p rest =>
    cases p with
    | mk pc pl =>
      exact Or.inr ⟨pc, pl.render ++ renderTail rest, rfl,
        (hg (pc, pl) (by simp)).1⟩

theorem parseLoop_render :
    ∀ (ps : List (Char × NumLit)) (L : NumLit) (i : Nat) (acc : List Token)
      (fuel : Nat),
      GoodLit L → (∀ p ∈ ps, isOpChar p.1 = true ∧ GoodLit p.2) →
      lastIsNumber acc = false →
      (L.render ++ renderTail ps).length ≤ fuel →
      parseLoop fuel (L.render ++ renderTail ps) i acc =
        acc ++ tokensFrom L ps i := by
  intro ps
  induction ps with
  | nil =>
    intro L i acc fuel hgl _ hacc hfuel
    obtain ⟨c, restc, hLr⟩ := List.exists_cons_of_ne_nil (render_ne_nil L hgl)
    have hrem : L.render ++ renderTail [] = c :: (restc ++ renderTail []) := by
      rw [hLr]
      rfl
    cases fuel with
    | zero =>
      exfalso
      rw [hrem] at hfuel
      simp at hfuel
    | succ f =>
      rw [hrem, parseLoop]
      have hhead : L.render.head? = some c := by rw [hLr]; rfl
      have hspace : isSpaceChar c = false :=
        render_no_space L hgl c (by rw [hLr]; simp)
      rw [if_neg (by simp [hspace])]
      rw [if_neg (by simp [hacc])]
      rw [if_pos (by
        rcases render_head L hgl c hhead with h | h | h <;> simp [h])]
      have hmunch := munchNumber_render L hgl (renderTail []) (Or.inl rfl)
      rw [← hrem, hmunch]
      simp only [renderTail, List.append_nil, parseLoop_nil, tokensFrom]
  | cons p rest2 ih =>
    intro L i acc fuel hgl hgp hacc hfuel
    obtain ⟨hop, hlit⟩ := hgp p (by simp)
    cases p with
    | mk pc pl =>
      obtain ⟨c, restc, hLr⟩ := List.exists_cons_of_ne_nil (render_ne_nil L hgl)
      have hrem : L.render ++ renderTail ((pc, pl) :: rest2) =
          c :: (restc ++ renderTail ((pc, pl) :: rest2)) := by
        rw [hLr]
        rfl
      cases fuel with
      | zero =>
        exfalso
        rw [hrem] at hfuel
        simp at hfuel
      | succ f =>
        rw [hrem, parseLoop]
        have hhead : L.render.head? = some c := by rw [hLr]; rfl
        have hspace : isSpaceChar c = false :=
          render_no_space L hgl c (by rw [hLr]; simp)
        rw [if_neg (by simp [hspace])]
        rw [if_neg (by simp [hacc])]
        rw [if_pos (by
          rcases render_head L hgl c hhead with h | h | h <;> simp [h])]
        have hmunch := munchNumber_render L hgl
          (renderTail ((pc, pl) :: rest2))
          (renderTail_opHeaded _ hgp)
        rw [← hrem, hmunch]
        -- the operator step
        have hrem2 : renderTail ((pc, pl) :: rest2) =
            pc :: (pl.render ++ renderTail rest2) := rfl
        cases f with
        | zero =>
          exfalso
          rw [hrem] at hfuel
          simp only [List.length_cons, Nat.succ_le_succ_iff] at hfuel
          rw [hrem2] at hfuel
          have h1 : restc.length + (pl.render ++ renderTail rest2).length + 1 ≤ 0 := by
            simpa [List.length_append] using hfuel
          omega
        | succ f2 =>
          simp only
          rw [hrem2, parseLoop]
          rw [if_neg (by simp [opChar_not_space pc hop])]
          rw [if_pos (by simp [hop, lastIsNumber_concat])]
          have hacc2 : lastIsNumber ((acc ++
              [⟨TKind.number, L.render, i, i + L.render.length⟩]) ++
              [⟨TKind.operator, [pc], i + L.render.length,
                i + L.render.length + 1⟩]) = false := by
            rw [lastIsNumber_concat]
            simp
          have hfuel2 : (pl.render ++ renderTail rest2).length ≤ f2 := by
            rw [hrem] at hfuel
            simp only [List.length_cons, Nat.succ_le_succ_iff] at hfuel
            rw [hrem2] at hfuel
            have : restc.length + ((pl.render ++ renderTail rest2).length + 1) ≤ f2 + 1 := by
              simpa [List.length_append] using hfuel
            omega
          rw [ih pl (i + L.render.length + 1) _ f2 hlit
            (fun q hq => hgp q (by simp [hq])) hacc2 hfuel2]
          simp [tokensFrom, List.append_assoc]

theorem parse_expression_render (w : WFExpr) (hg : GoodWF w) :
    parse_expression (renderWF w) = tokensFrom w.first w.rest 0 := by
  obtain ⟨hgl, hgp⟩ := hg
  have hservice : ∀ c ∈ renderWF w, isSpaceChar c = false := by
    intro c hc
    rw [renderWF, List.mem_append] at hc
    rcases hc with hc | hc
    · exact render_no_space _ hgl c hc
    · exact renderTail_no_space _ hgp c hc
  rw [parse_expression, stripChars_eq_self _ hservice]
  exact parseLoop_render w.rest w.first 0 [] _ hgl hgp rfl le_rfl

/-! ## parse_number succeeds on rendered literals -/

theorem parse_number_render (L : NumLit) (hg : GoodLit L) :
    ∃ q : ℚ, parse_number L.render = some q := by
  obtain ⟨hsign, ha, hb, hnodotb, habne, hexp, hnoexp, hd⟩ := hg
  have hstrip : stripChars L.render = L.render :=
    stripChars_eq_self _ (render_no_space L
      ⟨hsign, ha, hb, hnodotb, habne, hexp, hnoexp, hd⟩)
  set expPart : List Char :=
    if L.hasExp then L.echar :: (L.esign ++ L.d) else [] with hexpPart
  have hexpHead : ∀ c, expPart.head? = some c → isDigitChar c = false := by
    intro c hc
    by_cases hx : L.hasExp = true
    · rw [hexpPart] at hc
      simp only [hx, if_true, List.head?_cons, Option.some.injEq] at hc
      subst hc
      obtain ⟨hech, _, _⟩ := hexp hx
      rcases hech with h | h <;> rw [h] <;> rfl
    · simp only [Bool.not_eq_true] at hx
      rw [hexpPart] at hc
      simp only [hx, Bool.false_eq_true, if_false] at hc
      simp at hc
  set dotPart : List Char := if L.dot then '.' :: L.b else [] with hdotPart
  have hdotHead : ∀ c, (dotPart ++ expPart).head? = some c →
      isDigitChar c = false := by
    intro c hc
    by_cases hdt : L.dot = true
    · rw [hdotPart] at hc
      simp only [hdt, if_true, List.cons_append, List.head?_cons,
        Option.some.injEq] at hc
      subst hc
      rfl
    · simp only [Bool.not_eq_true] at hdt
      rw [hdotPart] at hc
      simp only [hdt, Bool.false_eq_true, if_false, List.nil_append] at hc
      exact hexpHead c hc
  have hspan : spanDigits (L.a ++ (dotPart ++ expPart)) =
      (L.a, dotPart ++ expPart) :=
    spanDigits_split _ _ ha hdotHead
  have hshape : L.render = L.sign ++ (L.a ++ (dotPart ++ expPart)) := by
    rw [NumLit.render, hdotPart, hexpPart]
    simp [List.append_assoc]
  -- the post-sign tail and the sign step
  have hsignstep : ∃ sgn : ℚ,
      (match L.sign ++ (L.a ++ (dotPart ++ expPart)) with
       | c :: rest =>
         if c == '-' then ((-1 : ℚ), rest)
         else if c == '+' then ((1 : ℚ), rest) else ((1 : ℚ), c :: rest)
       | [] => ((1 : ℚ), [])) = (sgn, L.a ++ (dotPart ++ expPart)) := by
    rcases hsign with h | h | h <;> rw [h]
    · refine ⟨1, ?_⟩
      simp only [List.nil_append]
      cases hA : L.a with
      | cons c0 a2 =>
        have hc0 : isDigitChar c0 = true := ha c0 (by rw [hA]; simp)
        have hsn := (digitChar_facts c0 hc0).2.1
        simp only [isSignChar, Bool.or_eq_false_iff] at hsn
        simp [hsn.1, hsn.2]
      | nil =>
        have hbne : L.b ≠ [] := by
          rcases habne with h1 | h1
          · exact absurd hA h1
          · exact h1
        have hdt : L.dot = true := by
          by_cases hdt : L.dot = true
          · exact hdt
          · simp only [Bool.not_eq_true] at hdt
            exact absurd (hnodotb hdt) hbne
        rw [hdotPart]
        simp [hdt]
    · exact ⟨1, by simp⟩
    · exact ⟨-1, by simp⟩
  obtain ⟨sgn, hsgn⟩ := hsignstep
  -- the dot step of parse_number
  have hdotstep :
      (match dotPart ++ expPart with
       | c :: rest => if c == '.' then spanDigits rest else ([], c :: rest)
       | [] => (([] : List Char), ([] : List Char))) = (L.b, expPart) := by
    by_cases hdt : L.dot = true
    · rw [hdotPart]
      simp only [hdt, if_true, List.cons_append]
      simp only [beq_self_eq_true, if_true]
      exact spanDigits_split _ _ hb hexpHead
    · simp only [Bool.not_eq_true] at hdt
      rw [hdotPart]
      simp only [hdt, Bool.false_eq_true, if_false, List.nil_append]
      rw [hnodotb hdt]
      by_cases hx : L.hasExp = true
      · obtain ⟨hech, _, _⟩ := hexp hx
        rw [hexpPart]
        simp only [hx, if_true]
        have : (L.echar == '.') = false := by
          rcases hech with h | h <;> rw [h] <;> rfl
        simp [this]
      · simp only [Bool.not_eq_true] at hx
        rw [hexpPart]
        simp [hx]
  have hcond : (L.a.isEmpty && L.b.isEmpty) = false := by
    rcases habne with h1 | h1
    · simp [List.isEmpty_iff, h1]
    · simp [List.isEmpty_iff, h1]
  rw [parse_number, hstrip, hshape, hsgn]
  simp only [hspan, hdotstep, hcond, Bool.false_eq_true, if_false]
  by_cases hx : L.hasExp = true
  · obtain ⟨hech, hes, hdne⟩ := hexp hx
    rw [hexpPart]
    simp only [hx, if_true]
    have hech2 : isExpChar L.echar = true := by
      rcases hech with h | h <;> rw [h] <;> rfl
    simp only [hech2, if_true]
    have hdspan : spanDigits L.d = (L.d, []) := spanDigits_all _ hd
    have hdhead : ∀ c2, L.d.head? = some c2 → (c2 == '-') = false ∧
        (c2 == '+') = false := by
      intro c2 hc2
      obtain ⟨c0, d2, hD⟩ := List.exists_cons_of_ne_nil hdne
      rw [hD] at hc2
      simp only [List.head?_cons, Option.some.injEq] at hc2
      subst hc2
      have hsn := (digitChar_facts c0 (hd c0 (by rw [hD]; simp))).2.1
      simp only [isSignChar, Bool.or_eq_false_iff] at hsn
      exact ⟨hsn.2, hsn.1⟩
    rcases hes with h | h | h <;> rw [h]
    · simp only [List.nil_append]
      obtain ⟨c0, d2, hD⟩ := List.exists_cons_of_ne_nil hdne
      obtain ⟨hm, hp⟩ := hdhead c0 (by rw [hD]; rfl)
      rw [hD]
      simp only [hm, hp, Bool.false_eq_true, if_false]
      rw [← hD, hdspan]
      rw [if_neg (by simp [List.isEmpty_iff, hdne])]
      exact ⟨_, rfl⟩
    · simp only [List.cons_append]
      simp only [show (('+' : Char) == '-') = false from rfl,
        show (('+' : Char) == '+') = true from rfl, Bool.false_eq_true,
        if_false, if_true]
      rw [if_neg (by simp [hdspan, List.isEmpty_iff, hdne])]
      exact ⟨_, rfl⟩
    · simp only [List.cons_append]
      simp only [show (('-' : Char) == '-') = true from rfl, if_true]
      rw [if_neg (by simp [hdspan, List.isEmpty_iff, hdne])]
      exact ⟨_, rfl⟩
  · simp only [Bool.not_eq_true] at hx
    rw [hexpPart]
    simp only [hx, Bool.false_eq_true, if_false]
    exact ⟨_, rfl⟩

/-! ## parse_number on rendered integers -/

theorem parse_number_natToChars (n : Nat) :
    parse_number (natToChars n) = some (n : ℚ) := by
  have hall := natToChars_all_digits n
  have hne := natToChars_ne_nil n
  have hstrip : stripChars (natToChars n) = natToChars n :=
    stripChars_eq_self _ (fun c hc => (digitChar_facts c (hall c hc)).1)
  obtain ⟨c, rest, hcr⟩ := List.exists_cons_of_ne_nil hne
  have hcd : isDigitChar c = true := hall c (by rw [hcr]; simp)
  have hspan : spanDigits (natToChars n) = (natToChars n, []) :=
    spanDigits_all _ hall
  rw [parse_number, hstrip, hcr]
  have hneg : (c == '-') = false := by
    have h2 := (digitChar_facts c hcd).2.1
    simp only [isSignChar, Bool.or_eq_false_iff] at h2
    exact h2.2
  have hpos : (c == '+') = false := by
    have h2 := (digitChar_facts c hcd).2.1
    simp only [isSignChar, Bool.or_eq_false_iff] at h2
    exact h2.1
  simp only [hneg, hpos, Bool.false_eq_true, if_false, ← hcr, hspan]
  rw [if_neg]
  · have hod := ofDigits_natToChars n
    simp only [hod, show ofDigits ([] : List Char) = 0 from rfl]
    norm_num
  · simp [List.isEmpty_iff, hcr]

theorem parse_number_intToChars (m : Int) :
    parse_number (intToChars m) = some (m : ℚ) := by
  by_cases hm : m < 0
  · rw [intToChars, if_pos hm]
    have hall := natToChars_all_digits m.natAbs
    have hne := natToChars_ne_nil m.natAbs
    have hstrip : stripChars ('-' :: natToChars m.natAbs) =
        '-' :: natToChars m.natAbs := by
      apply stripChars_eq_self
      intro c hc
      rcases List.mem_cons.mp hc with hc | hc
      · subst hc; rfl
      · exact (digitChar_facts c (hall c hc)).1
    have hspan : spanDigits (natToChars m.natAbs) = (natToChars m.natAbs, []) :=
      spanDigits_all _ hall
    rw [parse_number, hstrip]
    simp only [beq_self_eq_true, if_true, hspan]
    rw [if_neg]
    · have hod := ofDigits_natToChars m.natAbs
      simp only [hod, show ofDigits ([] : List Char) = 0 from rfl]
      norm_num
      rw [Int.cast_natAbs, abs_of_neg (by exact_mod_cast hm)]
      push_cast
      ring
    · simp [List.isEmpty_iff, hne]
  · rw [intToChars, if_neg hm]
    rw [parse_number_natToChars]
    congr 1
    rw [Int.cast_natAbs, abs_of_nonneg (by exact_mod_cast (not_lt.mp hm))]

/-! ## Claim C5: format / parse round trip -/

/-- Claim C5 counterexample: the value 10000000.5 (exactly representable as
a binary float, embedded here as the exact rational 20000001/2) is formatted
by the `%g` branch to `"1e+07"`, which re-parses to 10000000 — a different
value.  The round trip fails because `%g` keeps only 6 significant digits. -/
theorem format_round_trip_counterexample :
    format_number ((20000001 : ℚ) / 2) = ("1e+07").toList ∧
    parse_number (("1e+07").toList) = some ((10000000 : ℚ)) ∧
    (10000000 : ℚ) ≠ (20000001 : ℚ) / 2 := by
  refine ⟨by with_unfolding_all rfl, by with_unfolding_all rfl, by norm_num⟩

/-- Claim C5 amended: the round trip `parse_number (format_number x) = x`
holds for every float value that is mathematically an integer (those take
the `str(int(value))` branch); for other values the `%g` branch keeps only
6 significant digits, so the formatted string generally re-parses to a
nearby but different value. -/
theorem format_round_trip_amended (q : ℚ) (h : q.den = 1) :
    parse_number (format_number q) = some q := by
  have hqnum : ((q.num : Int) : ℚ) = q := by
    conv_rhs => rw [← Rat.num_div_den q]
    rw [h]
    simp
  have htr : truncQ q = q.num := by
    rw [truncQ, h]
    simp
  rw [format_number, if_pos (by rw [htr, hqnum]), htr,
    parse_number_intToChars, hqnum]

/-- Witness for C5 amended: the integer-valued float -45 round-trips. -/
theorem format_round_trip_amended_witness :
    ((-45 : ℚ)).den = 1 ∧ parse_number (format_number (-45 : ℚ)) = some (-45 : ℚ) := by
  refine ⟨by with_unfolding_all rfl, format_round_trip_amended _ (by with_unfolding_all rfl)⟩

/-! ## Soundness of the best-operator scan -/

theorem bestOpAux_sound :
    ∀ (ts : List Token) (i0 : Nat) (best : Option Nat) (bp : Int) (i : Nat),
      bestOpAux ts i0 best bp = some i →
      (best = some i ∧ ∀ (m : Nat) (t : Token), ts[m]? = some t →
        t.kind = TKind.operator → OPERATOR_PRIORITY t.value ≤ bp) ∨
      (∃ (m : Nat) (t : Token), i = i0 + m ∧ ts[m]? = some t ∧
        t.kind = TKind.operator ∧ bp < OPERATOR_PRIORITY t.value ∧
        (∀ (m2 : Nat) (t2 : Token), ts[m2]? = some t2 →
          t2.kind = TKind.operator →
          OPERATOR_PRIORITY t2.value ≤ OPERATOR_PRIORITY t.value) ∧
        (∀ (m2 : Nat) (t2 : Token), m2 < m → ts[m2]? = some t2 →
          t2.kind = TKind.operator →
          OPERATOR_PRIORITY t2.value < OPERATOR_PRIORITY t.value)) := by
  intro ts
  induction ts with
  | nil =>
    intro i0 best bp i h
    rw [bestOpAux] at h
    exact Or.inl ⟨h, fun m t hm => by simp at hm⟩
  | cons t rest ih =>
    intro i0 best bp i h
    rw [bestOpAux] at h
    by_cases hk : t.kind = TKind.operator
    · rw [if_pos hk] at h
      by_cases hp : bp < OPERATOR_PRIORITY t.value
      · rw [if_pos hp] at h
        rcases ih (i0 + 1) (some i0) _ i h with ⟨hbest, hall⟩ | h2
        · right
          have hii : i0 = i := by injection hbest
          subst hii
          refine ⟨0, t, by omega, by simp, hk, hp, ?_, ?_⟩
          · intro m2 t2 hm2 hk2
            cases m2 with
            | zero =>
              simp only [List.getElem?_cons_zero, Option.some.injEq] at hm2
              subst hm2
              exact le_rfl
            | succ k =>
              rw [List.getElem?_cons_succ] at hm2
              exact hall k t2 hm2 hk2
          · intro m2 t2 hm2
            omega
        · right
          obtain ⟨m2, t2, hi2, hget2, hk2, hbp2, hall2, hstrict2⟩ := h2
          refine ⟨m2 + 1, t2, by omega, by
            rw [List.getElem?_cons_succ]; exact hget2, hk2,
            lt_trans hp hbp2, ?_, ?_⟩
          · intro m3 t3 hm3 hk3
            cases m3 with
            | zero =>
              simp only [List.getElem?_cons_zero, Option.some.injEq] at hm3
              subst hm3
              exact le_of_lt hbp2
            | succ k =>
              rw [List.getElem?_cons_succ] at hm3
              exact hall2 k t3 hm3 hk3
          · intro m3 t3 hlt hm3 hk3
            cases m3 with
            | zero =>
              simp only [List.getElem?_cons_zero, Option.some.injEq] at hm3
              subst hm3
              exact hbp2
            | succ k =>
              rw [List.getElem?_cons_succ] at hm3
              exact hstrict2 k t3 (by omega) hm3 hk3
      · rw [if_neg hp] at h
        rcases ih (i0 + 1) best _ i h with ⟨hbest, hall⟩ | h2
        · left
          refine ⟨hbest, ?_⟩
          intro m2 t2 hm2 hk2
          cases m2 with
          | zero =>
            simp only [List.getElem?_cons_zero, Option.some.injEq] at hm2
            subst hm2
            exact not_lt.mp hp
          | succ k =>
            rw [List.getElem?_cons_succ] at hm2
            exact hall k t2 hm2 hk2
        · right
          obtain ⟨m2, t2, hi2, hget2, hk2, hbp2, hall2, hstrict2⟩ := h2
          refine ⟨m2 + 1, t2, by omega, by
            rw [List.getElem?_cons_succ]; exact hget2, hk2, hbp2, ?_, ?_⟩
          · intro m3 t3 hm3 hk3
            cases m3 with
            | zero =>
              simp only [List.getElem?_cons_zero, Option.some.injEq] at hm3
              subst hm3
              exact le_of_lt (lt_of_le_of_lt (not_lt.mp hp) hbp2)
            | succ k =>
              rw [List.getElem?_cons_succ] at hm3
              exact hall2 k t3 hm3 hk3
          · intro m3 t3 hlt hm3 hk3
            cases m3 with
            | zero =>
              simp only [List.getElem?_cons_zero, Option.some.injEq] at hm3
              subst hm3
              exact lt_of_le_of_lt (not_lt.mp hp) hbp2
            | succ k =>
              rw [List.getElem?_cons_succ] at hm3
              exact hstrict2 k t3 (by omega) hm3 hk3
    · rw [if_neg hk] at h
      rcases ih (i0 + 1) best _ i h with ⟨hbest, hall⟩ | h2
      · left
        refine ⟨hbest, ?_⟩
        intro m2 t2 hm2 hk2
        cases m2 with
        | zero =>
          simp only [List.getElem?_cons_zero, Option.some.injEq] at hm2
          subst hm2
          exact absurd hk2 hk
        | succ k =>
          rw [List.getElem?_cons_succ] at hm2
          exact hall k t2 hm2 hk2
      · right
        obtain ⟨m2, t2, hi2, hget2, hk2, hbp2, hall2, hstrict2⟩ := h2
        refine ⟨m2 + 1, t2, by omega, by
          rw [List.getElem?_cons_succ]; exact hget2, hk2, hbp2, ?_, ?_⟩
        · intro m3 t3 hm3 hk3
          cases m3 with
          | zero =>
            simp only [List.getElem?_cons_zero, Option.some.injEq] at hm3
            subst hm3
            exact absurd hk3 hk
          | succ k =>
            rw [List.getElem?_cons_succ] at hm3
            exact hall2 k t3 hm3 hk3
        · intro m3 t3 hlt hm3 hk3
          cases m3 with
          | zero =>
            simp only [List.getElem?_cons_zero, Option.some.injEq] at hm3
            subst hm3
            exact absurd hk3 hk
          | succ k =>
            rw [List.getElem?_cons_succ] at hm3
            exact hstrict2 k t3 (by omega) hm3 hk3

theorem bestOpAux_none :
    ∀ (ts : List Token) (i0 : Nat) (best : Option Nat) (bp : Int),
      bestOpAux ts i0 best bp = none →
      best = none ∧ ∀ (m : Nat) (t : Token), ts[m]? = some t →
        t.kind = TKind.operator → OPERATOR_PRIORITY t.value ≤ bp := by
  intro ts
  induction ts with
  | nil =>
    intro i0 best bp h
    rw [bestOpAux] at h
    exact ⟨h, fun m t hm => by simp at hm⟩
  | cons t rest ih =>
    intro i0 best bp h
    rw [bestOpAux] at h
    by_cases hk : t.kind = TKind.operator
    · rw [if_pos hk] at h
      by_cases hp : bp < OPERATOR_PRIORITY t.value
      · rw [if_pos hp] at h
        obtain ⟨hbest, _⟩ := ih _ _ _ h
        exact Option.noConfusion hbest
      · rw [if_neg hp] at h
        obtain ⟨hbest, hall⟩ := ih _ _ _ h
        refine ⟨hbest, ?_⟩
        intro m t2 hm hk2
        cases m with
        | zero =>
          simp only [List.getElem?_cons_zero, Option.some.injEq] at hm
          subst hm
          exact not_lt.mp hp
        | succ k =>
          rw [List.getElem?_cons_succ] at hm
          exact hall k t2 hm hk2
    · rw [if_neg hk] at h
      obtain ⟨hbest, hall⟩ := ih _ _ _ h
      refine ⟨hbest, ?_⟩
      intro m t2 hm hk2
      cases m with
      | zero =>
        simp only [List.getElem?_cons_zero, Option.some.injEq] at hm
        subst hm
        exact absurd hk2 hk
      | succ k =>
        rw [List.getElem?_cons_succ] at hm
        exact hall k t2 hm hk2

/-! ## Index structure of the token list of a rendered expression -/

theorem tokensFrom_length (ps : List (Char × NumLit)) :
    ∀ (L : NumLit) (i : Nat), (tokensFrom L ps i).length = 2 * ps.length + 1 := by
  induction ps with
  | nil => intro L i; rfl
  | cons p rest ih =>
    intro L i
    cases p with
    | mk pc pl =>
      simp only [tokensFrom, List.length_cons, ih, List.length_cons]
      omega

theorem tokensFrom_get_even (ps : List (Char × NumLit)) :
    ∀ (L : NumLit) (i m : Nat), m ≤ ps.length →
      (tokensFrom L ps i)[2 * m]? =
        some ⟨TKind.number, (litAt L ps m).render, i + offAt L ps m,
          i + offAt L ps m + (litAt L ps m).render.length⟩ := by
  induction ps with
  | nil =>
    intro L i m hm
    simp only [List.length_nil, Nat.le_zero] at hm
    subst hm
    simp [tokensFrom, litAt, offAt]
  | cons p rest ih =>
    intro L i m hm
    cases p with
    | mk pc pl =>
      cases m with
      | zero => simp [tokensFrom, litAt, offAt]
      | succ m2 =>
        have h2 : 2 * (m2 + 1) = (2 * m2 + 1) + 1 := by omega
        rw [h2]
        simp only [tokensFrom, List.getElem?_cons_succ]
        rw [ih pl (i + L.render.length + 1) m2 (by
          simp only [List.length_cons] at hm
          omega)]
        · simp only [litAt, offAt, Option.some.injEq, Token.mk.injEq]
          and_intros <;> first | trivial | omega

theorem tokensFrom_get_odd (ps : List (Char × NumLit)) :
    ∀ (L : NumLit) (i m : Nat), m < ps.length →
      (tokensFrom L ps i)[2 * m + 1]? =
        some ⟨TKind.operator, [(pairAt ps m).1],
          i + offAt L ps m + (litAt L ps m).render.length,
          i + offAt L ps m + (litAt L ps m).render.length + 1⟩ := by
  induction ps with
  | nil => intro L i m hm; simp at hm
  | cons p rest ih =>
    intro L i m hm
    cases p with
    | mk pc pl =>
      cases m with
      | zero => simp [tokensFrom, litAt, offAt, pairAt]
      | succ m2 =>
        have h2 : 2 * (m2 + 1) + 1 = ((2 * m2 + 1) + 1) + 1 := by omega
        rw [h2]
        simp only [tokensFrom, List.getElem?_cons_succ]
        rw [ih pl (i + L.render.length + 1) m2 (by
          simp only [List.length_cons] at hm
          omega)]
        simp only [litAt, offAt, pairAt, List.getElem?_cons_succ,
          Option.some.injEq, Token.mk.injEq]
        and_intros <;> first | trivial | omega

theorem tokensFrom_op_odd (ps : List (Char × NumLit)) :
    ∀ (L : NumLit) (i n : Nat) (t : Token),
      (tokensFrom L ps i)[n]? = some t → t.kind = TKind.operator →
      ∃ m, n = 2 * m + 1 ∧ m < ps.length := by
  induction ps with
  | nil =>
    intro L i n t hget hk
    cases n with
    | zero =>
      simp only [tokensFrom, List.getElem?_cons_zero, Option.some.injEq] at hget
      rw [← hget] at hk
      exact TKind.noConfusion hk
    | succ n2 =>
      simp only [tokensFrom, List.getElem?_cons_succ] at hget
      simp at hget
  | cons p rest ih =>
    intro L i n t hget hk
    cases p with
    | mk pc pl =>
      cases n with
      | zero =>
        simp only [tokensFrom, List.getElem?_cons_zero, Option.some.injEq] at hget
        rw [← hget] at hk
        exact TKind.noConfusion hk
      | succ n2 =>
        cases n2 with
        | zero =>
          exact ⟨0, rfl, by simp⟩
        | succ n3 =>
          simp only [tokensFrom, List.getElem?_cons_succ] at hget
          obtain ⟨m2, hm2, hlt⟩ := ih pl _ n3 t hget hk
          exact ⟨m2 + 1, by omega, by simp only [List.length_cons]; omega⟩

/-! ## The resolver implements the precedence rule on rendered expressions -/

theorem litAt_succ (ps : List (Char × NumLit)) :
    ∀ (L : NumLit) (j : Nat), j < ps.length →
      litAt L ps (j + 1) = (pairAt ps j).2 := by
  induction ps with
  | nil => intro L j hj; simp at hj
  | cons p rest ih =>
    intro L j hj
    cases p with
    | mk pc pl =>
      cases j with
      | zero => simp [litAt, pairAt]
      | succ j2 =>
        simp only [litAt, pairAt, List.getElem?_cons_succ]
        have := ih pl j2 (by simp only [List.length_cons] at hj; omega)
        simpa [pairAt] using this

theorem offAt_succ (ps : List (Char × NumLit)) :
    ∀ (L : NumLit) (j : Nat), j < ps.length →
      offAt L ps (j + 1) =
        offAt L ps j + (litAt L ps j).render.length + 1 := by
  induction ps with
  | nil => intro L j hj; simp at hj
  | cons p rest ih =>
    intro L j hj
    cases p with
    | mk pc pl =>
      cases j with
      | zero => simp [offAt, litAt]
      | succ j2 =>
        simp only [offAt, litAt]
        have := ih pl j2 (by simp only [List.length_cons] at hj; omega)
        omega

theorem opPrio_pos (c : Char) (h : isOpChar c = true) :
    1 ≤ OPERATOR_PRIORITY [c] := by
  rcases opChar_cases c h with rfl | rfl | rfl | rfl <;> decide

theorem find_next_on_wf (w : WFExpr) (hg : GoodWF w) (hne : w.rest ≠ []) :
    ∃ j : Nat, j < w.rest.length ∧
      bestOpIdx (tokensFrom w.first w.rest 0) = some (2 * j + 1) ∧
      IsSpecChoiceTok (tokensFrom w.first w.rest 0) (2 * j + 1) ∧
      find_next_operation (tokensFrom w.first w.rest 0) = .found
        ⟨[(pairAt w.rest j).1],
         (litAt w.first w.rest j).render,
         (pairAt w.rest j).2.render,
         (offAt w.first w.rest j,
          offAt w.first w.rest j + (litAt w.first w.rest j).render.length + 1 +
            (pairAt w.rest j).2.render.length),
         OPERATOR_TO_TOOL [(pairAt w.rest j).1]⟩ ∧
      (1 ≤ j → OPERATOR_PRIORITY [(pairAt w.rest (j - 1)).1] <
        OPERATOR_PRIORITY [(pairAt w.rest j).1]) := by
  have hk : 1 ≤ w.rest.length := List.length_pos.mpr hne
  have hlen := tokensFrom_length w.rest w.first 0
  have hop0 := tokensFrom_get_odd w.rest w.first 0 0 (by omega)
  have hmem0 : pairAt w.rest 0 ∈ w.rest := by
    cases hR : w.rest with
    | nil => exact absurd hR hne
    | cons q qs =>
      rw [pairAt]
      simp
  cases hbest : bestOpIdx (tokensFrom w.first w.rest 0) with
  | none =>
    exfalso
    obtain ⟨_, hall⟩ := bestOpAux_none _ 0 none (-1) hbest
    have h1 := hall 1 _ (by simpa using hop0) rfl
    have h2 : OPERATOR_PRIORITY [(pairAt w.rest 0).1] ≤ -1 := h1
    have hpos := opPrio_pos (pairAt w.rest 0).1 (hg.2 _ hmem0).1
    omega
  | some i =>
    rcases bestOpAux_sound _ 0 none (-1) i hbest with ⟨h0, _⟩ | h2
    · exact Option.noConfusion h0
    · obtain ⟨m, t, hi, hget, hkind, _, hall, hstrict⟩ := h2
      obtain ⟨j, hm2j, hjlt⟩ := tokensFrom_op_odd w.rest w.first 0 m t hget hkind
      have him : i = m := by omega
      subst him
      subst hm2j
      have hodd := tokensFrom_get_odd w.rest w.first 0 j hjlt
      have heven_l := tokensFrom_get_even w.rest w.first 0 j (le_of_lt hjlt)
      have heven_r := tokensFrom_get_even w.rest w.first 0 (j + 1) hjlt
      have htval : t = ⟨TKind.operator, [(pairAt w.rest j).1],
          0 + offAt w.first w.rest j + (litAt w.first w.rest j).render.length,
          0 + offAt w.first w.rest j + (litAt w.first w.rest j).render.length +
            1⟩ := by
        rw [hget] at hodd
        injection hodd
      refine ⟨j, hjlt, rfl, ?_, ?_, ?_⟩
      · refine ⟨⟨t, hget, hkind⟩, ?_, ?_⟩
        · intro m2 t2 hm2 hk2
          rw [hget]
          exact hall m2 t2 hm2 hk2
        · intro m2 t2 hlt hm2 hk2
          rw [hget]
          exact hstrict m2 t2 hlt hm2 hk2
      · have h2j2 : 2 * j + 1 + 1 = 2 * (j + 1) := by omega
        have hm1 : 2 * j + 1 - 1 = 2 * j := by omega
        have hne0 : (2 * j + 1 = 0) = False := by simp
        rw [find_next_operation, if_neg (by omega)]
        simp only [hbest, h2j2, hm1, heven_r, hne0, if_false, heven_l, hodd,
          Option.getD_some]
        have hlit := litAt_succ w.rest w.first j hjlt
        have hoff := offAt_succ w.rest w.first j hjlt
        simp only [FindOutcome.found.injEq, Operation.mk.injEq, hlit,
          Prod.mk.injEq, hoff]
        and_intros <;> first | trivial | omega
      · intro hj1
        have hjm1 : j - 1 < w.rest.length := by omega
        have hoddm1 := tokensFrom_get_odd w.rest w.first 0 (j - 1) hjm1
        have hidx : 2 * (j - 1) + 1 < 2 * j + 1 := by omega
        have hres := hstrict (2 * (j - 1) + 1) _ hidx hoddm1 rfl
        rw [htval] at hres
        exact hres

/-! ## Splicing the new literal into the rendered expression -/

theorem opChar_ne_lparen (c : Char) (h : isOpChar c = true) : c ≠ '(' := by
  rcases opChar_cases c h with rfl | rfl | rfl | rfl <;> decide

theorem opPrio_le_two (c : Char) (h : isOpChar c = true) :
    OPERATOR_PRIORITY [c] ≤ 2 := by
  rcases opChar_cases c h with rfl | rfl | rfl | rfl <;> decide

theorem pairAt_mem (ps : List (Char × NumLit)) (j : Nat) (hj : j < ps.length) :
    pairAt ps j ∈ ps := by
  rw [pairAt, List.getElem?_eq_getElem hj]
  simp only [Option.getD_some]
  exact List.getElem_mem hj

/-- `replace_span` on a decomposed string with operator characters (never a
parenthesis) adjacent to the span: no widening fires and the substitution is
a plain splice. -/
theorem replace_span_splice (pre mid post r : List Char)
    (hpre : pre = [] ∨ ∃ (pre2 : List Char) (c : Char),
      isOpChar c = true ∧ pre = pre2 ++ [c])
    (hpost : post = [] ∨ ∃ (c : Char) (post2 : List Char),
      isOpChar c = true ∧ post = c :: post2) :
    replace_span (pre ++ mid ++ post) (pre.length, pre.length + mid.length) r =
      pre ++ r ++ post := by
  have hnw : ¬(0 < pre.length ∧
      pre.length + mid.length < (pre ++ mid ++ post).length ∧
      (pre ++ mid ++ post)[pre.length - 1]? = some '(' ∧
      (pre ++ mid ++ post)[pre.length + mid.length]? = some ')') := by
    rcases hpre with rfl | ⟨pre2, c, hc, rfl⟩
    · intro h
      simp at h
    · intro h
      obtain ⟨_, _, hpar, _⟩ := h
      have hidx : (pre2 ++ [c]).length - 1 = pre2.length := by
        simp
      rw [hidx] at hpar
      rw [List.append_assoc, List.append_assoc] at hpar
      rw [List.getElem?_append_right (by simp)] at hpar
      simp only [Nat.sub_self] at hpar
      simp only [List.singleton_append, List.getElem?_cons_zero,
        Option.some.injEq] at hpar
      exact opChar_ne_lparen c hc hpar
  rw [replace_span]
  rw [if_neg hnw]
  simp only
  have htake : (pre ++ mid ++ post).take pre.length = pre := by
    rw [List.append_assoc]
    simpa using List.take_left pre (mid ++ post)
  have hdrop : (pre ++ mid ++ post).drop (pre.length + mid.length) = post := by
    have : pre.length + mid.length = (pre ++ mid).length := by simp
    rw [this]
    exact List.drop_left (pre ++ mid) post
  rw [htake, hdrop]

/-- Decomposition of a rendered well-formed expression around the operator at
pair-index `j`, together with the render of the structural reduction. -/
theorem reduce_decomp :
    ∀ (rest : List (Char × NumLit)) (L : NumLit) (j : Nat) (newL : NumLit),
      j < rest.length →
      (∀ p ∈ rest, isOpChar p.1 = true) →
      ∃ pre post : List Char,
        renderWF ⟨L, rest⟩ = pre ++ ((litAt L rest j).render ++
          ((pairAt rest j).1 :: (pairAt rest j).2.render)) ++ post ∧
        pre.length = offAt L rest j ∧
        renderWF (reduceAt ⟨L, rest⟩ j newL) = pre ++ newL.render ++ post ∧
        (j = 0 → pre = []) ∧
        (1 ≤ j → ∃ (pre2 : List Char) (c : Char), isOpChar c = true ∧
          pre = pre2 ++ [c]) ∧
        ((j + 1 = rest.length ∧ post = []) ∨
          (∃ (c : Char) (post2 : List Char), isOpChar c = true ∧
            post = c :: post2)) := by
  intro rest
  induction rest with
  | nil =>
    intro L j newL hj _
    simp at hj
  | cons p rest2 ih =>
    intro L j newL hj hops
    cases p with
    | mk pc pl =>
      cases j with
      | zero =>
        refine ⟨[], renderTail rest2, ?_, rfl, ?_, fun _ => rfl,
          by omega, ?_⟩
        · simp only [renderWF, renderTail, litAt, pairAt,
            List.getElem?_cons_zero, Option.getD_some, List.nil_append]
          simp [List.append_assoc]
        · simp only [reduceAt, reducePairs, renderWF, List.nil_append]
        · cases rest2 with
          | nil => exact Or.inl ⟨rfl, rfl⟩
          | cons q qs =>
            cases q with
            | mk qc ql =>
              exact Or.inr ⟨qc, ql.render ++ renderTail qs,
                hops (qc, ql) (by simp), rfl⟩
      | succ m =>
        obtain ⟨pre2, post2, hrend, hlen, hred, hzero, hone, hpost⟩ :=
          ih pl m newL (by simp only [List.length_cons] at hj; omega)
            (fun q hq => hops q (by simp [hq]))
        refine ⟨L.render ++ pc :: pre2, post2, ?_, ?_, ?_, by omega, ?_, ?_⟩
        · simp only [renderWF, renderTail, litAt, pairAt,
            List.getElem?_cons_succ] at hrend ⊢
          rw [hrend]
          simp [List.append_assoc]
        · simp only [List.length_append, List.length_cons, offAt]
          rw [hlen]
          omega
        · simp only [reduceAt, reducePairs, renderWF, renderTail] at hred ⊢
          rw [hred]
          simp [List.append_assoc]
        · intro _
          cases m with
          | zero =>
            refine ⟨L.render, pc, hops (pc, pl) (by simp), ?_⟩
            rw [hzero rfl]
          | succ m2 =>
            obtain ⟨pre3, c, hc, hpre3⟩ := hone (by omega)
            refine ⟨L.render ++ pc :: pre3, c, hc, ?_⟩
            rw [hpre3]
            simp
        · rcases hpost with ⟨hlen2, hp⟩ | ⟨c, post3, hc, hp⟩
          · exact Or.inl ⟨by simp only [List.length_cons]; omega, hp⟩
          · exact Or.inr ⟨c, post3, hc, hp⟩

/-! ## Goodness and divisor safety are preserved by a reduction -/

theorem reducePairs_first (rest : List (Char × NumLit)) (L : NumLit)
    (j : Nat) (newL : NumLit) (hj : 1 ≤ j) :
    (reducePairs L rest j newL).1 = L := by
  cases rest with
  | nil => rfl
  | cons p rest2 =>
    cases j with
    | zero => omega
    | succ m => rfl

theorem reducePairs_good :
    ∀ (rest : List (Char × NumLit)) (L : NumLit) (j : Nat) (newL : NumLit),
      GoodLit L → (∀ p ∈ rest, isOpChar p.1 = true ∧ GoodLit p.2) →
      GoodLit newL →
      GoodLit (reducePairs L rest j newL).1 ∧
      ∀ p ∈ (reducePairs L rest j newL).2,
        isOpChar p.1 = true ∧ GoodLit p.2 := by
  intro rest
  induction rest with
  | nil =>
    intro L j newL hL _ _
    exact ⟨hL, by intro p hp; simp [reducePairs] at hp⟩
  | cons p rest2 ih =>
    intro L j newL hL hps hnew
    cases j with
    | zero =>
      refine ⟨hnew, ?_⟩
      intro q hq
      exact hps q (by simp [reducePairs] at hq; simp [hq])
    | succ m =>
      cases p with
      | mk pc pl =>
        obtain ⟨h1, h2⟩ := ih pl m newL (hps (pc, pl) (by simp)).2
          (fun q hq => hps q (by simp [hq])) hnew
        refine ⟨hL, ?_⟩
        intro q hq
        simp only [reducePairs, List.mem_cons] at hq
        rcases hq with rfl | hq
        · exact ⟨(hps (pc, pl) (by simp)).1, h1⟩
        · exact h2 q hq

theorem reducePairs_divsafe :
    ∀ (rest : List (Char × NumLit)) (L : NumLit) (j : Nat) (newL : NumLit),
      j < rest.length →
      (∀ p ∈ rest, p.1 = '/' → parse_number p.2.render ≠ some 0) →
      (1 ≤ j → OPERATOR_PRIORITY [(pairAt rest (j - 1)).1] <
        OPERATOR_PRIORITY [(pairAt rest j).1]) →
      (∀ p ∈ rest, isOpChar p.1 = true) →
      ∀ p ∈ (reducePairs L rest j newL).2, p.1 = '/' →
        parse_number p.2.render ≠ some 0 := by
  intro rest
  induction rest with
  | nil =>
    intro L j newL hj _ _ _
    simp at hj
  | cons p rest2 ih =>
    intro L j newL hj hsafe hnb hops
    cases j with
    | zero =>
      intro q hq
      exact hsafe q (by simp only [reducePairs] at hq; simp [hq])
    | succ m =>
      cases p with
      | mk pc pl =>
        intro q hq hdiv
        simp only [reducePairs, List.mem_cons] at hq
        rcases hq with rfl | hq
        · -- the pair immediately left of the collapsed operator
          cases m with
          | zero =>
            -- its operator would need strictly smaller priority than the
            -- chosen one, impossible for '/'
            exfalso
            have hnb1 := hnb (by omega)
            have e0 : (pairAt ((pc, pl) :: rest2) (0 + 1 - 1)).1 = pc := by
              simp [pairAt]
            have e1 : pairAt ((pc, pl) :: rest2) (0 + 1) = pairAt rest2 0 := by
              simp [pairAt]
            rw [e0, e1] at hnb1
            have hpc : pc = '/' := hdiv
            rw [hpc] at hnb1
            have h2 : OPERATOR_PRIORITY ['/'] = 2 := by decide
            rw [h2] at hnb1
            have hle := opPrio_le_two (pairAt rest2 0).1 (by
              have hmem := pairAt_mem rest2 0 (by
                simp only [List.length_cons] at hj
                omega)
              exact hops _ (by simp [hmem]))
            omega
          | succ m2 =>
            -- the reduction happened further right: the pair is unchanged
            have hfirst : (reducePairs pl rest2 (m2 + 1) newL).1 = pl :=
              reducePairs_first rest2 pl (m2 + 1) newL (by omega)
            rw [hfirst]
            rw [hfirst] at hdiv
            exact hsafe (pc, pl) (by simp) hdiv
        · -- a pair of the reduced tail
          refine ih pl m newL (by simp only [List.length_cons] at hj; omega)
            (fun q2 hq2 => hsafe q2 (by simp [hq2]))
            ?_ (fun q2 hq2 => hops q2 (by simp [hq2])) q hq hdiv
          intro hm1
          have hnb2 := hnb (by omega)
          have e1 : pairAt ((pc, pl) :: rest2) (m + 1 - 1) =
              pairAt rest2 (m - 1) := by
            have : m + 1 - 1 = (m - 1) + 1 := by omega
            rw [this, pairAt, pairAt, List.getElem?_cons_succ]
          have e2 : pairAt ((pc, pl) :: rest2) (m + 1) = pairAt rest2 m := by
            rw [pairAt, pairAt, List.getElem?_cons_succ]
          rw [e1, e2] at hnb2
          exact hnb2

theorem litAt_good :
    ∀ (rest : List (Char × NumLit)) (L : NumLit) (j : Nat),
      GoodLit L → (∀ p ∈ rest, isOpChar p.1 = true ∧ GoodLit p.2) →
      GoodLit (litAt L rest j) := by
  intro rest
  induction rest with
  | nil =>
    intro L j hL _
    cases j with
    | zero => exact hL
    | succ m => exact hL
  | cons p rest2 ih =>
    intro L j hL hps
    cases j with
    | zero => exact hL
    | succ m =>
      exact ih p.2 m (hps p (by simp)).2 (fun q hq => hps q (by simp [hq]))

theorem reducePairs_length :
    ∀ (rest : List (Char × NumLit)) (L : NumLit) (j : Nat) (newL : NumLit),
      j < rest.length →
      (reducePairs L rest j newL).2.length + 1 = rest.length := by
  intro rest
  induction rest with
  | nil =>
    intro L j newL hj
    simp at hj
  | cons p rest2 ih =>
    intro L j newL hj
    cases j with
    | zero => simp [reducePairs]
    | succ m =>
      have hm := ih p.2 m newL (by simp only [List.length_cons] at hj; omega)
      simp only [reducePairs, List.length_cons]
      omega

/-- The deterministic computation collaborator succeeds with a numeric value
on the well-formed operator/operand fields, provided a division's divisor is
nonzero. -/
theorem detCompute_op (c : Char) (hc : isOpChar c = true)
    (lhsS rhsS : List Char) (sp : Option (Nat × Nat)) (tl : Option (List Char))
    (ql qr : ℚ) (hql : parse_number lhsS = some ql)
    (hqr : parse_number rhsS = some qr) (hdiv : c = '/' → qr ≠ 0) :
    ∃ res : ℚ,
      detCompute ⟨some [c], some lhsS, some rhsS, sp, tl⟩ =
        .res (.value res) := by
  rcases opChar_cases c hc with rfl | rfl | rfl | rfl
  · refine ⟨ql + qr, ?_⟩
    simp only [detCompute, Option.some_bind, hql, hqr]
    rw [if_pos (by decide)]
    rfl
  · refine ⟨ql - qr, ?_⟩
    simp only [detCompute, Option.some_bind, hql, hqr]
    rw [if_neg (by decide), if_pos (by decide)]
    rfl
  · refine ⟨ql * qr, ?_⟩
    simp only [detCompute, Option.some_bind, hql, hqr]
    rw [if_neg (by decide), if_neg (by decide), if_pos (by decide)]
    rfl
  · refine ⟨ql / qr, ?_⟩
    have h0 : qr ≠ 0 := hdiv rfl
    simp only [detCompute, Option.some_bind, hql, hqr]
    rw [if_neg (by decide), if_neg (by decide), if_neg (by decide),
      if_pos (by decide)]
    rw [div, if_neg h0]

/-- One full cycle of the deterministic run on a reducible, well-formed,
divisor-safe expression: the loop takes the `looped` branch, appends exactly
the render of the structural reduction at the resolver's chosen pair-index
(the operator the precedence rule selects), clears the pending fields, and
the reduced expression is again well-formed and divisor-safe with one pair
fewer. -/
theorem wf_cycle (w : WFExpr) (hg : GoodWF w) (hsafe : DivSafe w)
    (hne : w.rest ≠ []) (hist : List (List Char)) (flds : DecideFields) :
    ∃ (j : Nat) (newL : NumLit),
      j < w.rest.length ∧
      IsSpecChoiceTok (tokensFrom w.first w.rest 0) (2 * j + 1) ∧
      GoodWF (reduceAt w j newL) ∧ DivSafe (reduceAt w j newL) ∧
      (reduceAt w j newL).rest.length + 1 = w.rest.length ∧
      oneCycle detDecide detCompute
        ⟨hist ++ [renderWF w], flds.operator, flds.lhs, flds.rhs, flds.span,
          flds.tool, none⟩ =
        .looped ⟨(hist ++ [renderWF w]) ++ [renderWF (reduceAt w j newL)],
          none, none, none, none, none, none⟩ := by
  obtain ⟨j, hj, hbest, hspec, hfind, hnb⟩ := find_next_on_wf w hg hne
  have hpmem : pairAt w.rest j ∈ w.rest := pairAt_mem w.rest j hj
  have hopc : isOpChar (pairAt w.rest j).1 = true := (hg.2 _ hpmem).1
  have hrhsg : GoodLit (pairAt w.rest j).2 := (hg.2 _ hpmem).2
  have hlhsg : GoodLit (litAt w.first w.rest j) :=
    litAt_good w.rest w.first j hg.1 hg.2
  obtain ⟨ql, hql⟩ := parse_number_render _ hlhsg
  obtain ⟨qr, hqr⟩ := parse_number_render _ hrhsg
  have hdivne : (pairAt w.rest j).1 = '/' → qr ≠ 0 := by
    intro hc h0
    exact hsafe _ hpmem hc (h0 ▸ hqr)
  obtain ⟨res, hcomp⟩ := detCompute_op _ hopc
    (litAt w.first w.rest j).render (pairAt w.rest j).2.render
    (some (offAt w.first w.rest j,
      offAt w.first w.rest j + (litAt w.first w.rest j).render.length + 1 +
        (pairAt w.rest j).2.render.length))
    (some (OPERATOR_TO_TOOL [(pairAt w.rest j).1])) ql qr hql hqr hdivne
  obtain ⟨newL, hgNew, hrNew⟩ := format_number_lit res
  have hlast : (hist ++ [renderWF w]).getLast? = some (renderWF w) := by
    simp
  have hsingle : is_single_number (renderWF w) = false := by
    obtain ⟨⟨c0, L0⟩, rest2, hR⟩ : ∃ p rest2, w.rest = p :: rest2 := by
      cases hR : w.rest with
      | nil => exact absurd hR hne
      | cons p r => exact ⟨p, r, rfl⟩
    have hcur : renderWF w =
        w.first.render ++ c0 :: (L0.render ++ renderTail rest2) := by
      rw [renderWF, hR, renderTail]
    rw [hcur]
    refine is_single_number_render_tail w.first hg.1 c0 ?_
      (L0.render ++ renderTail rest2) ?_
    · exact (hg.2 (c0, L0) (by rw [hR]; simp)).1
    · intro d hd
      rw [← hcur, renderWF, List.mem_append] at hd
      rcases hd with hd | hd
      · exact render_no_space _ hg.1 d hd
      · exact renderTail_no_space _ hg.2 d hd
  have hdec : detDecide (renderWF w) = .ok
      ⟨some [(pairAt w.rest j).1], some (litAt w.first w.rest j).render,
       some (pairAt w.rest j).2.render,
       some (offAt w.first w.rest j,
         offAt w.first w.rest j + (litAt w.first w.rest j).render.length + 1 +
           (pairAt w.rest j).2.render.length),
       some (OPERATOR_TO_TOOL [(pairAt w.rest j).1])⟩ := by
    simp only [detDecide]
    rw [parse_expression_render w hg, hfind]
  have hjudge : judge_node detDecide
      ⟨hist ++ [renderWF w], flds.operator, flds.lhs, flds.rhs, flds.span,
        flds.tool, none⟩ =
      ⟨hist ++ [renderWF w], some [(pairAt w.rest j).1],
        some (litAt w.first w.rest j).render,
        some (pairAt w.rest j).2.render,
        some (offAt w.first w.rest j,
          offAt w.first w.rest j + (litAt w.first w.rest j).render.length + 1 +
            (pairAt w.rest j).2.render.length),
        some (OPERATOR_TO_TOOL [(pairAt w.rest j).1]), none⟩ := by
    rw [judge_node]
    simp [hlast, hsingle, hdec]
  have hroute : route_after_judge
      ⟨hist ++ [renderWF w], some [(pairAt w.rest j).1],
        some (litAt w.first w.rest j).render,
        some (pairAt w.rest j).2.render,
        some (offAt w.first w.rest j,
          offAt w.first w.rest j + (litAt w.first w.rest j).render.length + 1 +
            (pairAt w.rest j).2.render.length),
        some (OPERATOR_TO_TOOL [(pairAt w.rest j).1]), none⟩ = .toCalc := by
    rw [route_after_judge]
    simp [truthyStr, hlast, hsingle]
  obtain ⟨pre, post, hrend, hlen, hred, hzero, hone, hpostd⟩ :=
    reduce_decomp w.rest w.first j newL hj (fun p hp => (hg.2 p hp).1)
  have hpre2 : pre = [] ∨ ∃ (pre2 : List Char) (c : Char),
      isOpChar c = true ∧ pre = pre2 ++ [c] := by
    cases Nat.eq_zero_or_pos j with
    | inl h0 => exact Or.inl (hzero h0)
    | inr h1 => exact Or.inr (hone h1)
  have hpost2 : post = [] ∨ ∃ (c : Char) (post2 : List Char),
      isOpChar c = true ∧ post = c :: post2 := by
    rcases hpostd with ⟨_, hp⟩ | hp
    · exact Or.inl hp
    · exact Or.inr hp
  have hmidlen : ((litAt w.first w.rest j).render ++
      ((pairAt w.rest j).1 :: (pairAt w.rest j).2.render)).length =
      (litAt w.first w.rest j).render.length + 1 +
        (pairAt w.rest j).2.render.length := by
    simp only [List.length_append, List.length_cons]
    omega
  have hrepl : replace_span (renderWF w)
      (offAt w.first w.rest j,
        offAt w.first w.rest j + (litAt w.first w.rest j).render.length + 1 +
          (pairAt w.rest j).2.render.length) newL.render =
      renderWF (reduceAt w j newL) := by
    rw [hrend, hred]
    have h1 : offAt w.first w.rest j = pre.length := hlen.symm
    rw [h1]
    have h2 : pre.length + (litAt w.first w.rest j).render.length + 1 +
        (pairAt w.rest j).2.render.length =
        pre.length + ((litAt w.first w.rest j).render ++
          ((pairAt w.rest j).1 :: (pairAt w.rest j).2.render)).length := by
      rw [hmidlen]
      omega
    rw [h2]
    exact replace_span_splice pre _ post newL.render hpre2 hpost2
  have hupdate : update_node
      ⟨hist ++ [renderWF w], some [(pairAt w.rest j).1],
        some (litAt w.first w.rest j).render,
        some (pairAt w.rest j).2.render,
        some (offAt w.first w.rest j,
          offAt w.first w.rest j + (litAt w.first w.rest j).render.length + 1 +
            (pairAt w.rest j).2.render.length),
        some (OPERATOR_TO_TOOL [(pairAt w.rest j).1]), none⟩ (.value res) =
      ⟨(hist ++ [renderWF w]) ++ [renderWF (reduceAt w j newL)],
        none, none, none, none, none, none⟩ := by
    rw [update_node]
    simp only [hlast, Option.getD_some]
    rw [← hrNew, hrepl]
  refine ⟨j, newL, hj, hspec, ?_, ?_, ?_, ?_⟩
  · exact ⟨(reducePairs_good w.rest w.first j newL hg.1 hg.2 hgNew).1,
      (reducePairs_good w.rest w.first j newL hg.1 hg.2 hgNew).2⟩
  · intro p hp hdiv
    exact reducePairs_divsafe w.rest w.first j newL hj hsafe hnb
      (fun q hq => (hg.2 q hq).1) p hp hdiv
  · exact reducePairs_length w.rest w.first j newL hj
  · simp only [oneCycle]
    rw [hjudge]
    simp only [hroute, fieldsOf]
    simp only [hcomp]
    simp only [hupdate]
    simp [route_after_update, truthyStr]

/-- One iteration of the claim's reduction relation: some operator pair-index
`j` and replacement literal take `w` to `w2`, and the operator token chosen
(token `2*j+1` of the tokenizer's output on the rendered expression) is the
one the claim's precedence rule selects. -/
def SpecStep (w w2 : WFExpr) : Prop :=
  ∃ (j : Nat) (newL : NumLit), j < w.rest.length ∧
    IsSpecChoiceTok (parse_expression (renderWF w)) (2 * j + 1) ∧
    w2 = reduceAt w j newL

/-- The deterministic run on a rendered well-formed divisor-safe expression
with `k` operators performs exactly `k` looped iterations — each a
`SpecStep` — and ends `done` without error on a history of `k + 1`
snapshots whose last entry renders a single number literal. -/
theorem wf_loop :
    ∀ (k : Nat) (w : WFExpr), w.rest.length = k → GoodWF w → DivSafe w →
      ∀ (hist : List (List Char)) (flds : DecideFields) (fuel : Nat),
        k < fuel →
        ∃ (ws : List WFExpr) (sF : CalcSt) (finalL : NumLit),
          ws.length = k ∧
          List.Chain SpecStep w ws ∧
          loopCalc detDecide detCompute fuel
            ⟨hist ++ [renderWF w], flds.operator, flds.lhs, flds.rhs,
              flds.span, flds.tool, none⟩ = .done sF ∧
          sF.expression = (hist ++ [renderWF w]) ++ ws.map renderWF ∧
          sF.error = none ∧
          GoodLit finalL ∧
          sF.expression.getLast? = some finalL.render := by
  intro k
  induction k with
  | zero =>
    intro w hk hg hsafe hist flds fuel hfuel
    have hnil : w.rest = [] := List.length_eq_zero.mp hk
    cases fuel with
    | zero => omega
    | succ f =>
      have hlast : (hist ++ [renderWF w]).getLast? = some (renderWF w) := by
        simp
      have hr : renderWF w = w.first.render := by
        rw [renderWF, hnil, renderTail]
        simp
      have hsingle : is_single_number (renderWF w) = true := by
        rw [hr]
        exact is_single_number_render w.first hg.1
      have hjudge : judge_node detDecide
          ⟨hist ++ [renderWF w], flds.operator, flds.lhs, flds.rhs,
            flds.span, flds.tool, none⟩ =
          ⟨hist ++ [renderWF w], flds.operator, flds.lhs, flds.rhs,
            flds.span, flds.tool, none⟩ := by
        rw [judge_node]
        simp [hlast, hsingle]
      have hroute : route_after_judge
          ⟨hist ++ [renderWF w], flds.operator, flds.lhs, flds.rhs,
            flds.span, flds.tool, none⟩ = .toEnd := by
        rw [route_after_judge]
        simp [truthyStr, hlast, hsingle]
      refine ⟨[], ⟨hist ++ [renderWF w], flds.operator, flds.lhs, flds.rhs,
        flds.span, flds.tool, none⟩, w.first, rfl, List.Chain.nil, ?_,
        by simp, rfl, hg.1, ?_⟩
      · simp only [loopCalc, oneCycle, hjudge, hroute]
      · simp [hr]
  | succ k ih =>
    intro w hk hg hsafe hist flds fuel hfuel
    have hne : w.rest ≠ [] := by
      intro h
      rw [h] at hk
      simp at hk
    cases fuel with
    | zero => omega
    | succ f =>
      obtain ⟨j, newL, hj, hspec, hg2, hsafe2, hlen2, hcycle⟩ :=
        wf_cycle w hg hsafe hne hist flds
      obtain ⟨ws2, sF, finalL, hlenw, hchain, hloop, hexpr, herr, hgf,
        hlastf⟩ :=
        ih (reduceAt w j newL) (by omega) hg2 hsafe2
          (hist ++ [renderWF w]) ⟨none, none, none, none, none⟩ f (by omega)
      refine ⟨reduceAt w j newL :: ws2, sF, finalL, ?_, ?_, ?_, ?_, herr,
        hgf, hlastf⟩
      · simp [hlenw]
      · refine List.Chain.cons ⟨j, newL, hj, ?_, rfl⟩ hchain
        rw [parse_expression_render w hg]
        exact hspec
      · simp only [loopCalc, hcycle]
        exact hloop
      · rw [hexpr]
        simp [List.append_assoc]

/-- Claim C1 is false as stated: `"5/0"` renders a well-formed,
parenthesis-free expression with one binary operator, yet the deterministic
run performs no reducing iteration — the history stays at its single
snapshot `["5/0"]` and the run ends in the division-by-zero error state
rather than performing exactly one iteration. -/
theorem iteration_count_counterexample :
    GoodWF ⟨⟨[], ['5'], false, [], false, 'e', [], []⟩,
      [('/', ⟨[], ['0'], false, [], false, 'e', [], []⟩)]⟩ ∧
    renderWF ⟨⟨[], ['5'], false, [], false, 'e', [], []⟩,
      [('/', ⟨[], ['0'], false, [], false, 'e', [], []⟩)]⟩ = ("5/0").toList ∧
    (⟨⟨[], ['5'], false, [], false, 'e', [], []⟩,
      [('/', ⟨[], ['0'], false, [], false, 'e', [], []⟩)]⟩ :
        WFExpr).rest.length = 1 ∧
    runCalc detDecide detCompute (.strE (("5/0").toList)) 10 =
      .done ⟨[("5/0").toList], some (("/").toList), some (("5").toList),
        some (("0").toList), some (0, 3), some (("div").toList),
        some (("division by zero").toList)⟩ := by
  refine ⟨by decide, by decide, rfl, ?_⟩
  with_unfolding_all rfl

/-- Claim C1 (amended): for every well-formed, parenthesis-free expression
with `k` binary operators in which no division has a right operand denoting
zero, the reduction loop performs exactly `k` iterations: the run ends
`done` with no error on a history of exactly `k + 1` snapshots beginning
with the input render, each iteration appends the render of the structural
reduction at an operator satisfying the claim's precedence rule (priorities
`*`,`/` = 2 and `+`,`-` = 1, leftmost among those of maximal priority —
`IsSpecChoiceTok` over the tokenizer's output), and the final snapshot is a
single number.  The divisor-safety hypothesis is necessary:
`iteration_count_counterexample` shows the unqualified claim fails on
`"5/0"`. -/
theorem iteration_count_amended (w : WFExpr) (k fuel : Nat)
    (hk : w.rest.length = k) (hg : GoodWF w) (hsafe : DivSafe w)
    (hfuel : k < fuel) :
    ∃ (ws : List WFExpr) (sF : CalcSt) (finalL : NumLit),
      ws.length = k ∧
      List.Chain SpecStep w ws ∧
      runCalc detDecide detCompute (.strE (renderWF w)) fuel = .done sF ∧
      sF.expression = renderWF w :: ws.map renderWF ∧
      sF.expression.length = k + 1 ∧
      sF.error = none ∧
      GoodLit finalL ∧
      sF.expression.getLast? = some finalL.render ∧
      is_single_number finalL.render = true := by
  obtain ⟨ws, sF, finalL, hlen, hchain, hloop, hexpr, herr, hgf, hlastf⟩ :=
    wf_loop k w hk hg hsafe [] ⟨none, none, none, none, none⟩ fuel hfuel
  refine ⟨ws, sF, finalL, hlen, hchain, ?_, ?_, ?_, herr, hgf, hlastf,
    is_single_number_render finalL hgf⟩
  · exact hloop
  · rw [hexpr]
    simp
  · rw [hexpr]
    simp [hlen]
    try omega

/-- The amended C1 theorem applied to the claim's own example `"1+2*3"`
(two operators, divisor-safe, fuel 4). -/
theorem iteration_count_amended_witness :
    ∃ (ws : List WFExpr) (sF : CalcSt) (finalL : NumLit),
      ws.length = 2 ∧
      List.Chain SpecStep ⟨⟨[], ['1'], false, [], false, 'e', [], []⟩,
        [('+', ⟨[], ['2'], false, [], false, 'e', [], []⟩),
         ('*', ⟨[], ['3'], false, [], false, 'e', [], []⟩)]⟩ ws ∧
      runCalc detDecide detCompute
        (.strE (renderWF ⟨⟨[], ['1'], false, [], false, 'e', [], []⟩,
          [('+', ⟨[], ['2'], false, [], false, 'e', [], []⟩),
           ('*', ⟨[], ['3'], false, [], false, 'e', [], []⟩)]⟩)) 4 =
        .done sF ∧
      sF.expression =
        renderWF ⟨⟨[], ['1'], false, [], false, 'e', [], []⟩,
          [('+', ⟨[], ['2'], false, [], false, 'e', [], []⟩),
           ('*', ⟨[], ['3'], false, [], false, 'e', [], []⟩)]⟩ ::
          ws.map renderWF ∧
      sF.expression.length = 2 + 1 ∧
      sF.error = none ∧
      GoodLit finalL ∧
      sF.expression.getLast? = some finalL.render ∧
      is_single_number finalL.render = true :=
  iteration_count_amended
    ⟨⟨[], ['1'], false, [], false, 'e', [], []⟩,
      [('+', ⟨[], ['2'], false, [], false, 'e', [], []⟩),
       ('*', ⟨[], ['3'], false, [], false, 'e', [], []⟩)]⟩ 2 4
    rfl (by decide) (by decide) (by decide)

/-! ## Claim C3: division by zero -/

/-- Claim C3: for every lhs, `div` with rhs = 0 returns the explicit error
value `division by zero` (not an exception, not a value); whenever a step's
tool result is that error, `update_node` propagates the message verbatim,
leaves the expression history unchanged, and `route_after_update` ends the
run; and the run on input `"5/0"` terminates with that error and history
`["5/0"]`. -/
theorem div_by_zero_confirmed :
    (∀ lhs : ℚ, div lhs 0 = .error (("division by zero").toList)) ∧
    (∀ s : CalcSt,
      update_node s (.error (("division by zero").toList)) =
        { s with error := some (("division by zero").toList) } ∧
      route_after_update
        { s with error := some (("division by zero").toList) } = false) ∧
    runCalc detDecide detCompute (.strE (("5/0").toList)) 10 =
      .done ⟨[("5/0").toList], some (("/").toList), some (("5").toList),
        some (("0").toList), some (0, 3), some (("div").toList),
        some (("division by zero").toList)⟩ := by
  refine ⟨fun lhs => rfl, fun s => ⟨rfl, rfl⟩, ?_⟩
  with_unfolding_all rfl

/-! ## Claim C10: totality of the precedence resolver -/

theorem bestOpAux_range :
    ∀ (ts : List Token) (j : Nat) (best : Option Nat) (p : Int) (i : Nat),
      bestOpAux ts j best p = some i →
      best = some i ∨ (j ≤ i ∧ i < j + ts.length ∧
        ∃ t, ts[i - j]? = some t ∧ t.kind = TKind.operator) := by
  intro ts
  induction ts with
  | nil =>
    intro j best p i h
    rw [bestOpAux] at h
    exact Or.inl h
  | cons t rest ih =>
    intro j best p i h
    rw [bestOpAux] at h
    by_cases hk : t.kind = TKind.operator
    · rw [if_pos hk] at h
      by_cases hp : p < OPERATOR_PRIORITY t.value
      · rw [if_pos hp] at h
        rcases ih (j + 1) (some j) _ i h with h1 | h2
        · right
          have hji : j = i := by injection h1
          subst hji
          refine ⟨le_rfl, by simp, t, ?_, hk⟩
          simp
        · right
          rcases h2 with ⟨hj, hlen, t2, ht2, hk2⟩
          refine ⟨by omega, by simp only [List.length_cons]; omega, t2, ?_, hk2⟩
          have hidx : i - j = (i - (j + 1)) + 1 := by omega
          rw [hidx, List.getElem?_cons_succ]
          exact ht2
      · rw [if_neg hp] at h
        rcases ih (j + 1) best _ i h with h1 | h2
        · exact Or.inl h1
        · right
          rcases h2 with ⟨hj, hlen, t2, ht2, hk2⟩
          refine ⟨by omega, by simp only [List.length_cons]; omega, t2, ?_, hk2⟩
          have hidx : i - j = (i - (j + 1)) + 1 := by omega
          rw [hidx, List.getElem?_cons_succ]
          exact ht2
    · rw [if_neg hk] at h
      rcases ih (j + 1) best _ i h with h1 | h2
      · exact Or.inl h1
      · right
        rcases h2 with ⟨hj, hlen, t2, ht2, hk2⟩
        refine ⟨by omega, by simp only [List.length_cons]; omega, t2, ?_, hk2⟩
        have hidx : i - j = (i - (j + 1)) + 1 := by omega
        rw [hidx, List.getElem?_cons_succ]
        exact ht2

/-- Boolean check that a token list does not end with an operator token. -/
def lastTokenIsNumber (ts : List Token) : Bool :=
  match ts.getLast? with
  | some t => decide (t.kind = TKind.number)
  | none => true

/-- Claim C10 counterexample: on the tokenizer output for `"1+2*"` — whose
highest-priority operator `*` is the final token — `find_next_operation`
evaluates `tokens[best_op_idx + 1]` out of range (an uncaught Python
IndexError, modelled as `.crash`), returning neither a pending operation nor
empty. -/
theorem resolver_crash_counterexample :
    find_next_operation (parse_expression (("1+2*").toList)) = .crash := by
  decide

/-- Claim C10 amended: the precedence resolver is total on every tokenizer
output that does not end with an operator token: it then returns either a
pending operation (whose lhs and rhs are the tokens adjacent to the chosen
operator) or empty, and never indexes out of range.  When the chosen
(highest-priority, leftmost) operator is the final token — e.g. for the
expression `"1+2*"` — it fails with an out-of-range index instead. -/
theorem resolver_no_crash_amended (expr : List Char)
    (h : lastTokenIsNumber (parse_expression expr) = true) :
    find_next_operation (parse_expression expr) ≠ .crash := by
  intro hcrash
  rw [find_next_operation] at hcrash
  by_cases hlen : (parse_expression expr).length < 3
  · rw [if_pos hlen] at hcrash
    exact FindOutcome.noConfusion hcrash
  · rw [if_neg hlen] at hcrash
    cases hb : bestOpIdx (parse_expression expr) with
    | none =>
      rw [hb] at hcrash
      exact FindOutcome.noConfusion hcrash
    | some i =>
      rw [hb] at hcrash
      cases hr : (parse_expression expr)[i + 1]? with
      | some rt =>
        simp only [hr] at hcrash
        exact FindOutcome.noConfusion hcrash
      | none =>
        rcases bestOpAux_range (parse_expression expr) 0 none (-1) i hb with h1 | h2
        · exact Option.noConfusion h1
        · rcases h2 with ⟨_, hlt, t, ht, hk⟩
          simp only [Nat.zero_add] at hlt
          have hge : (parse_expression expr).length ≤ i + 1 := by
            simpa using List.getElem?_eq_none_iff.mp hr
          have hi : i = (parse_expression expr).length - 1 := by omega
          have hlast : (parse_expression expr).getLast? = some t := by
            rw [List.getLast?_eq_getElem?, ← hi]
            simpa using ht
          rw [lastTokenIsNumber, hlast] at h
          simp only [decide_eq_true_eq] at h
          rw [h] at hk
          exact TKind.noConfusion hk

/-- Witness for C10 amended: the tokenizer output for `"1+2"` ends in a
number token and the resolver does not crash on it. -/
theorem resolver_no_crash_amended_witness :
    lastTokenIsNumber (parse_expression (("1+2").toList)) = true ∧
    find_next_operation (parse_expression (("1+2").toList)) ≠ .crash :=
  ⟨by decide, resolver_no_crash_amended _ (by decide)⟩

/-! ## Claim C2: the end-to-end run on "1+2*3+(3-1)*4/2" -/

/-- Claim C2 counterexample: with the engine driven by its own deterministic
precedence resolver and tools, the run on `"1+2*3+(3-1)*4/2"` ends with the
snapshot `"8"`, not `"11"`: the claimed final result is wrong. -/
theorem end_to_end_counterexample :
    runCalc detDecide detCompute (.strE (("1+2*3+(3-1)*4/2").toList)) 20 =
      .done ⟨[("1+2*3+(3-1)*4/2").toList, ("1+6+(3-1)*4/2").toList,
        ("1+6+(3-4/2").toList, ("1+6+(3-2").toList, ("7+(3-2").toList,
        ("10-2").toList, ("8").toList],
        none, none, none, none, none, none⟩ ∧
    (("8").toList : List Char) ≠ ("11").toList := by
  exact ⟨by with_unfolding_all rfl, by decide⟩

/-- Claim C2 amended: the reduction run on `"1+2*3+(3-1)*4/2"` produces a
snapshot history that starts with the input and ends with `"8"`, without
error.  (Because the tokenizer skips parentheses, the second step pairs the
`1` inside `(3-1)` with the `4` outside it across the `)`; the
mathematically expected `11` is never produced.) -/
theorem end_to_end_amended :
    runCalc detDecide detCompute (.strE (("1+2*3+(3-1)*4/2").toList)) 20 =
      .done ⟨[("1+2*3+(3-1)*4/2").toList, ("1+6+(3-1)*4/2").toList,
        ("1+6+(3-4/2").toList, ("1+6+(3-2").toList, ("7+(3-2").toList,
        ("10-2").toList, ("8").toList],
        none, none, none, none, none, none⟩ ∧
    ([("1+2*3+(3-1)*4/2").toList, ("1+6+(3-1)*4/2").toList,
        ("1+6+(3-4/2").toList, ("1+6+(3-2").toList, ("7+(3-2").toList,
        ("10-2").toList, ("8").toList].head? =
      some (("1+2*3+(3-1)*4/2").toList)) ∧
    ([("1+2*3+(3-1)*4/2").toList, ("1+6+(3-1)*4/2").toList,
        ("1+6+(3-4/2").toList, ("1+6+(3-2").toList, ("7+(3-2").toList,
        ("10-2").toList, ("8").toList].getLast? = some (("8").toList)) := by
  exact ⟨by with_unfolding_all rfl, by decide, by decide⟩

/-! ## Claim C6: start-node normalization -/

/-- Claim C6 counterexample: an empty-string input is caught by the
`isinstance(expression, str)` branch, which runs first, so `start_node`
normalizes it to `[""]`, not to `["0"]`; the run then terminates without
error with result `""`, not `"0"`. -/
theorem start_empty_string_counterexample :
    start_node (.strE []) = [([] : List Char)] ∧
    ([([] : List Char)] ≠ [("0").toList]) ∧
    runCalc detDecide detCompute (.strE []) 10 =
      .done ⟨[[]], none, none, none, none, none, none⟩ := by
  exact ⟨rfl, by decide, by with_unfolding_all rfl⟩

/-- Claim C6 amended: a missing expression (or an empty list) is normalized
to the singleton history `["0"]` and the run terminates successfully with
result `"0"`; a bare string — including the empty string — is normalized to
the singleton history containing exactly that string, so the empty string
yields `[""]` (and the run then ends without error with result `""`), not
`["0"]`. -/
theorem start_node_amended :
    start_node .missing = [("0").toList] ∧
    start_node (.listE []) = [("0").toList] ∧
    (∀ s : List Char, start_node (.strE s) = [s]) ∧
    runCalc detDecide detCompute .missing 10 =
      .done ⟨[("0").toList], none, none, none, none, none, none⟩ ∧
    runCalc detDecide detCompute (.strE []) 10 =
      .done ⟨[[]], none, none, none, none, none, none⟩ := by
  refine ⟨rfl, rfl, fun s => rfl, ?_, ?_⟩
  · with_unfolding_all rfl
  · with_unfolding_all rfl

/-! ## Loop-level helper lemmas -/

theorem judge_node_expression (dec : Decider) (s : CalcSt) :
    (judge_node dec s).expression = s.expression := by
  rw [judge_node]
  cases s.expression.getLast? with
  | none => rfl
  | some cur =>
    by_cases hs : is_single_number cur = true
    · simp [hs]
    · simp only [Bool.not_eq_true] at hs
      simp only [hs, Bool.false_eq_true, if_false]
      cases dec cur <;> rfl

theorem route_after_judge_error (s : CalcSt) (h : truthyStr s.error = true) :
    route_after_judge s = .toEnd := by
  rw [route_after_judge, if_pos h]

theorem route_after_update_error (s : CalcSt) (h : truthyStr s.error = true) :
    route_after_update s = false := by
  rw [route_after_update, h]
  rfl

theorem route_calc_not_error (s : CalcSt)
    (h : route_after_judge s = .toCalc) : truthyStr s.error = false := by
  by_cases he : truthyStr s.error = true
  · rw [route_after_judge_error s he] at h
    exact JudgeRoute.noConfusion h
  · simpa using he

theorem update_node_value_fields (s : CalcSt) (v : ℚ) :
    (update_node s (.value v)).error = s.error ∧
    ∃ x, (update_node s (.value v)).expression = s.expression ++ [x] := by
  exact ⟨rfl, _, rfl⟩

theorem update_node_error_fields (s : CalcSt) (e : List Char) :
    update_node s (.error e) = { s with error := some e } := rfl

/-- An ended cycle that sets the error field never mutates the expression
history: the error was recorded by `judge_node` or by `update_node`, and
both leave `expression` exactly as it was when they ran. -/
theorem cycle_error_preserves_expression (dec : Decider) (comp : Computer)
    (s s2 : CalcSt) (h : oneCycle dec comp s = .ended s2)
    (herr2 : truthyStr s2.error = true) (herr : truthyStr s.error = false) :
    s2.expression = s.expression := by
  rw [oneCycle] at h
  cases hr : route_after_judge (judge_node dec s) with
  | toEnd =>
    simp only [hr] at h
    have h2 : s2 = judge_node dec s := by
      injection h with h
      exact h.symm
    rw [h2, judge_node_expression]
  | toCalc =>
    simp only [hr] at h
    cases hc : comp (fieldsOf (judge_node dec s)) with
    | raiseE m =>
      simp only [hc] at h
      exact CycleResult.noConfusion h
    | res tr =>
      simp only [hc] at h
      by_cases hru : route_after_update (update_node (judge_node dec s) tr) = true
      · rw [if_pos hru] at h
        exact CycleResult.noConfusion h
      · rw [if_neg hru] at h
        have h2 : s2 = update_node (judge_node dec s) tr := by
          injection h with h
          exact h.symm
        cases tr with
        | error e =>
          rw [h2, update_node_error_fields, judge_node_expression]
        | value v =>
          have hverr := (update_node_value_fields (judge_node dec s) v).1
          have hje : truthyStr (judge_node dec s).error = false :=
            route_calc_not_error _ hr
          rw [h2] at herr2
          rw [hverr] at herr2
          rw [herr2] at hje
          exact Bool.noConfusion hje

/-- Every cycle only appends to the expression history. -/
theorem cycle_expression_extends (dec : Decider) (comp : Computer)
    (s s2 : CalcSt)
    (h : oneCycle dec comp s = .ended s2 ∨ oneCycle dec comp s = .looped s2) :
    ∃ t, s2.expression = s.expression ++ t := by
  rw [oneCycle] at h
  cases hr : route_after_judge (judge_node dec s) with
  | toEnd =>
    simp only [hr] at h
    rcases h with h | h
    · have h2 : s2 = judge_node dec s := by
        injection h with h
        exact h.symm
      exact ⟨[], by rw [h2, judge_node_expression, List.append_nil]⟩
    · exact CycleResult.noConfusion h
  | toCalc =>
    simp only [hr] at h
    cases hc : comp (fieldsOf (judge_node dec s)) with
    | raiseE m =>
      simp only [hc] at h
      rcases h with h | h <;> exact CycleResult.noConfusion h
    | res tr =>
      simp only [hc] at h
      have hupd : ∃ t, (update_node (judge_node dec s) tr).expression =
          s.expression ++ t := by
        cases tr with
        | error e =>
          exact ⟨[], by rw [update_node_error_fields, judge_node_expression,
            List.append_nil]⟩
        | value v =>
          obtain ⟨x, hx⟩ := (update_node_value_fields (judge_node dec s) v).2
          exact ⟨[x], by rw [hx, judge_node_expression]⟩
      by_cases hru : route_after_update (update_node (judge_node dec s) tr) = true
      · rw [if_pos hru] at h
        rcases h with h | h
        · exact CycleResult.noConfusion h
        · have h2 : s2 = update_node (judge_node dec s) tr := by
            injection h with h
            exact h.symm
          rw [h2]
          exact hupd
      · rw [if_neg hru] at h
        rcases h with h | h
        · have h2 : s2 = update_node (judge_node dec s) tr := by
            injection h with h
            exact h.symm
          rw [h2]
          exact hupd
        · exact CycleResult.noConfusion h

/-- Over any number of cycles, with any collaborators, the loop only extends
the snapshot history: every snapshot present when it started is preserved in
the returned state. -/
theorem loop_expression_extends (dec : Decider) (comp : Computer) :
    ∀ (fuel : Nat) (s s2 : CalcSt),
      (loopCalc dec comp fuel s = .done s2 ∨
       loopCalc dec comp fuel s = .outOfFuel s2) →
      ∃ t, s2.expression = s.expression ++ t := by
  intro fuel
  induction fuel with
  | zero =>
    intro s s2 h
    rcases h with h | h
    · exact RunResult.noConfusion h
    · rw [loopCalc] at h
      injection h with h
      exact ⟨[], by rw [← h, List.append_nil]⟩
  | succ f ih =>
    intro s s2 h
    rw [loopCalc] at h
    cases hc : oneCycle dec comp s with
    | ended s3 =>
      simp only [hc] at h
      rcases h with h | h
      · injection h with h
        subst h
        exact cycle_expression_extends dec comp s s3 (Or.inl hc)
      · exact RunResult.noConfusion h
    | raised m =>
      simp only [hc] at h
      rcases h with h | h <;> exact RunResult.noConfusion h
    | looped s3 =>
      simp only [hc] at h
      obtain ⟨t1, ht1⟩ := cycle_expression_extends dec comp s s3 (Or.inr hc)
      obtain ⟨t2, ht2⟩ := ih s3 s2 h
      exact ⟨t1 ++ t2, by rw [ht2, ht1, List.append_assoc]⟩

/-! ## Claim C7: terminal error states -/

/-- Claim C7 counterexample: an exception raised while dispatching the
computation (the `calc_llm.invoke` call in `calc_node` has no
`try`/`except`) escapes the engine uncaught: the run on `"1+2"` with a
raising computation collaborator returns the propagated exception instead of
a terminal error state, and the snapshot history is not returned at all. -/
theorem error_terminal_counterexample :
    runCalc detDecide (fun _ => .raiseE (("boom").toList))
      (.strE (("1+2").toList)) 10 = .raised (("boom").toList) := by
  with_unfolding_all rfl

/-- Claim C7 amended: once the error field is truthy both conditional edges
route to END, so no further node runs and neither the history nor the
pending fields change afterwards; a cycle that ends with an error set leaves
the expression history exactly as it was before that cycle; and with any
collaborators the loop only appends snapshots, so every snapshot produced
before a failure is preserved in the returned state.  However, exceptions
are only caught inside `judge_node` and `update_node`: one raised during the
computation dispatch (`calc_node` has no handler) escapes the engine
uncaught and discards the state. -/
theorem error_terminal_amended :
    (∀ s : CalcSt, truthyStr s.error = true →
      route_after_judge s = .toEnd ∧ route_after_update s = false) ∧
    (∀ (dec : Decider) (comp : Computer) (s s2 : CalcSt),
      oneCycle dec comp s = .ended s2 → truthyStr s2.error = true →
      truthyStr s.error = false → s2.expression = s.expression) ∧
    (∀ (dec : Decider) (comp : Computer) (fuel : Nat) (s s2 : CalcSt),
      (loopCalc dec comp fuel s = .done s2 ∨
       loopCalc dec comp fuel s = .outOfFuel s2) →
      ∃ t, s2.expression = s.expression ++ t) := by
  refine ⟨?_, ?_, ?_⟩
  · intro s h
    exact ⟨route_after_judge_error s h, route_after_update_error s h⟩
  · intro dec comp s s2 h h2 h3
    exact cycle_error_preserves_expression dec comp s s2 h h2 h3
  · intro dec comp fuel s s2 h
    exact loop_expression_extends dec comp fuel s s2 h

/-- Witness for C7 amended: instantiated on the `"5/0"` division-by-zero
run: the error state routes to END, and the failing cycle preserved the
single snapshot. -/
theorem error_terminal_amended_witness :
    route_after_judge ⟨[("5/0").toList], none, none, none, none, none,
      some (("division by zero").toList)⟩ = .toEnd ∧
    route_after_update ⟨[("5/0").toList], none, none, none, none, none,
      some (("division by zero").toList)⟩ = false := by
  exact (error_terminal_amended.1 _ (by decide))

/-! ## Claim C8: decision failures -/

/-- Claim C8 counterexample: on input `"1+"` (not a single number) the
deterministic resolver returns empty, `judge_node` records no error, and
`route_after_judge` quietly ends the run: the final state has no error even
though the last history entry is not a single number. -/
theorem decision_failure_counterexample :
    runCalc detDecide detCompute (.strE (("1+").toList)) 10 =
      .done ⟨[("1+").toList], none, none, none, none, none, none⟩ ∧
    is_single_number (("1+").toList) = false := by
  exact ⟨by with_unfolding_all rfl, by decide⟩

/-- Claim C8 amended: when the decision step fails with an exception (parse
error or malformed response) on a current expression that is not a single
number, the loop terminates in the error state with the recorded message
`judge_node failed: ...` and an unchanged history; but when the decision
step merely returns no operator (e.g. the resolver returns empty) on such an
expression, the loop terminates silently with no recorded error. -/
theorem decision_failure_amended :
    (∀ (dec : Decider) (comp : Computer) (s : CalcSt) (cur msg : List Char),
      s.error = none → s.expression.getLast? = some cur →
      is_single_number cur = false → dec cur = .fail msg →
      oneCycle dec comp s = .ended { s with
        error := some ((("judge_node failed: ").toList) ++ msg) }) ∧
    (∀ (dec : Decider) (comp : Computer) (s : CalcSt) (cur : List Char),
      s.error = none → s.expression.getLast? = some cur →
      is_single_number cur = false →
      dec cur = .ok ⟨none, none, none, none, none⟩ →
      oneCycle dec comp s = .ended { s with operator := none, lhs := none, rhs := none, span := none, tool := none } ∧
      ({ s with operator := none, lhs := none, rhs := none, span := none, tool := none } : CalcSt).error = none) := by
  constructor
  · intro dec comp s cur msg herr hcur hsingle hdec
    have hj : judge_node dec s = { s with
        error := some ((("judge_node failed: ").toList) ++ msg) } := by
      rw [judge_node, hcur]
      simp only [hsingle, Bool.false_eq_true, if_false, hdec]
    rw [oneCycle, hj, route_after_judge_error]
    rfl
  · intro dec comp s cur herr hcur hsingle hdec
    have hj : judge_node dec s = { s with operator := none, lhs := none, rhs := none, span := none, tool := none } := by
      rw [judge_node, hcur]
      simp only [hsingle, Bool.false_eq_true, if_false, hdec]
    have hroute : route_after_judge { s with operator := none, lhs := none, rhs := none, span := none, tool := none } = .toEnd := by
      rw [route_after_judge]
      rw [if_neg (by simp [herr, truthyStr])]
      rw [if_neg (by simp [hcur, hsingle])]
      rfl
    rw [oneCycle, hj, hroute]
    exact ⟨rfl, herr⟩

/-- Witness for C8 amended, instantiated on the deterministic resolver: on
`"1+2*"` the resolver raises (IndexError caught by `judge_node`) and the
cycle ends with the recorded message; on `"1+"` it returns empty and the
cycle ends without error. -/
theorem decision_failure_amended_witness :
    oneCycle detDecide detCompute (initialState (.strE (("1+2*").toList))) =
      .ended { initialState (.strE (("1+2*").toList)) with error := some ((("judge_node failed: ").toList) ++ ("list index out of range").toList) } ∧
    oneCycle detDecide detCompute (initialState (.strE (("1+").toList))) =
      .ended { initialState (.strE (("1+").toList)) with operator := none, lhs := none, rhs := none, span := none, tool := none } := by
  constructor
  · exact decision_failure_amended.1 detDecide detCompute
      (initialState (.strE (("1+2*").toList))) (("1+2*").toList)
      (("list index out of range").toList) rfl rfl (by decide) (by decide)
  · exact (decision_failure_amended.2 detDecide detCompute
      (initialState (.strE (("1+").toList))) (("1+").toList)
      rfl rfl (by decide) (by decide)).1

/-! ## Claim C4: the step budget -/

/-- A decision collaborator that always answers with the same non-reducing
operation: operator `+`, operands `1` and `1`, span `[0, 1)`. -/
def badDecide : Decider := fun _ =>
  .ok ⟨some (("+").toList), some (("1").toList), some (("1").toList),
    some (0, 1), some (("add").toList)⟩

theorem badDecide_cycle (s : CalcSt)
    (hlast : s.expression.getLast? = some (("2+1").toList))
    (herr : s.error = none) :
    oneCycle badDecide detCompute s =
      .looped { s with expression := s.expression ++ [("2+1").toList], operator := none, lhs := none, rhs := none, span := none, tool := none } := by
  have hj : judge_node badDecide s = { s with operator := some (("+").toList), lhs := some (("1").toList), rhs := some (("1").toList), span := some (0, 1), tool := some (("add").toList) } := by
    simp only [judge_node, hlast]
    rw [if_neg (by decide)]
    rfl
  have hroute : route_after_judge { s with operator := some (("+").toList), lhs := some (("1").toList), rhs := some (("1").toList), span := some (0, 1), tool := some (("add").toList) } = .toCalc := by
    simp only [route_after_judge]
    rw [if_neg (by simp [herr, truthyStr])]
    rw [if_neg (by simp only [hlast]; decide)]
    rfl
  have hcomp : detCompute (fieldsOf { s with operator := some (("+").toList), lhs := some (("1").toList), rhs := some (("1").toList), span := some (0, 1), tool := some (("add").toList) }) = .res (.value 2) := by
    with_unfolding_all rfl
  have hfmt : format_number (2 : ℚ) = ("2").toList := by with_unfolding_all rfl
  have hupd : update_node { s with operator := some (("+").toList), lhs := some (("1").toList), rhs := some (("1").toList), span := some (0, 1), tool := some (("add").toList) } (.value 2) =
      { s with expression := s.expression ++ [("2+1").toList], operator := none, lhs := none, rhs := none, span := none, tool := none } := by
    simp only [update_node, hfmt, hlast, Option.getD_some]
    simp only [CalcSt.mk.injEq]
    refine ⟨?_, trivial, trivial, trivial, trivial, trivial, trivial⟩
    exact congrArg (fun x => s.expression ++ x) (by decide)
  simp only [oneCycle, hj, hroute, hcomp, hupd]
  rw [if_pos (by simp [route_after_update, herr, truthyStr])]

theorem badDecide_never_done :
    ∀ (fuel : Nat) (s : CalcSt),
      s.expression.getLast? = some (("2+1").toList) → s.error = none →
      (loopCalc badDecide detCompute fuel s).isDone = false := by
  intro fuel
  induction fuel with
  | zero =>
    intro s _ _
    rfl
  | succ f ih =>
    intro s hlast herr
    rw [loopCalc, badDecide_cycle s hlast herr]
    exact ih _ (by simp) herr

/-- Claim C4: the configuration defines `MAX_STEPS = 100` (documented as
preventing an infinite loop), but the graph never enforces it: with a
decision collaborator that never reduces the operator count, the loop is
still running after any number of cycles — in particular after far more
than `MAX_STEPS` — and no `StepBudgetExceeded`-style error is ever produced.
(In the real deployment the only stop is the framework recursion limit,
which raises an exception that escapes `graph.invoke` uncaught.) -/
theorem step_budget_code_bug :
    MAX_STEPS = 100 ∧
    ∀ n : Nat,
      (runCalc badDecide detCompute (.strE (("1+1").toList)) n).isDone = false := by
  refine ⟨rfl, ?_⟩
  intro n
  cases n with
  | zero => rfl
  | succ m =>
    rw [runCalc, loopCalc]
    rw [show oneCycle badDecide detCompute (initialState (.strE (("1+1").toList))) =
      .looped ⟨[("1+1").toList, ("2+1").toList], none, none, none, none, none,
        none⟩ from by with_unfolding_all rfl]
    exact badDecide_never_done m _ (by decide) rfl

/-! ## Claim C9: the span rewriter -/

/-- Claim C9: for every expression, span `[start, stop)` and replacement, the
rewriter returns `expr[0:start] ++ r ++ expr[stop:]`, except that when the
character immediately before `start` is `(` and the character immediately
after `stop - 1` is `)`, the span is first widened by one character on each
side, removing that parenthesis pair; nothing outside the (possibly widened)
span changes. -/
theorem replace_span_confirmed :
    ∀ (expr : List Char) (s e : Nat) (r : List Char),
      ((0 < s ∧ e < expr.length ∧ expr[s - 1]? = some '(' ∧
          expr[e]? = some ')') →
        replace_span expr (s, e) r = expr.take (s - 1) ++ r ++ expr.drop (e + 1)) ∧
      (¬(0 < s ∧ e < expr.length ∧ expr[s - 1]? = some '(' ∧
          expr[e]? = some ')') →
        replace_span expr (s, e) r = expr.take s ++ r ++ expr.drop e) := by
  intro expr s e r
  constructor
  · intro h
    simp only [replace_span, if_pos h]
  · intro h
    simp only [replace_span, if_neg h]

/-- Witness for C9: both branches at concrete inputs: `"(1+2)"` with span
`[1,4)` collapses the parenthesis pair giving `"3"`; `"1+2*3"` with span
`[2,5)` gives `"1+6"`. -/
theorem replace_span_confirmed_witness :
    replace_span (("(1+2)").toList) (1, 4) (("3").toList) = ("3").toList ∧
    replace_span (("1+2*3").toList) (2, 5) (("6").toList) = ("1+6").toList := by
  constructor
  · have h := (replace_span_confirmed (("(1+2)").toList) 1 4 (("3").toList)).1
      (by refine ⟨by decide, by decide, by decide, by decide⟩)
    simpa using h
  · have h := (replace_span_confirmed (("1+2*3").toList) 2 5 (("6").toList)).2
      (by decide)
    simpa using h

end CalcAgent
